import Mathlib

/-!
Verification of the number-theory formula library (`formula.py`).

Each Python function under scrutiny is shallowly embedded as an executable
Lean definition operating on `Nat` / `Int` / `Rat` (Python's arbitrary
precision integers and `fractions.Fraction` are modelled by `ℤ` and `ℚ`;
Python's `//` and `%` on integers coincide with `Int.ediv` / `Int.emod`
for the positive divisors arising here, which are Lean's `/` and `%` on `ℤ`).
Functions that can raise are embedded with result type `Except String _`,
the error string being the message of the raised `ValueError`.
-/

/-! ### `max_subarray` (Kadane scan) -/

/-- Loop of `max_subarray`: carries `max_so_far` and `max_ending_here`;
each element updates `max_ending_here = max(0, max_ending_here + x)` and
`max_so_far = max(max_so_far, max_ending_here)`. -/
def max_subarray_go (msf meh : ℤ) : List ℤ → ℤ
  | [] => msf
  | x :: l =>
    let meh' := max 0 (meh + x)
    max_subarray_go (max msf meh') meh' l

/-- `max_subarray(array)` from `formula.py`: single left-to-right Kadane scan
starting from `max_so_far = max_ending_here = 0`. -/
def max_subarray (array : List ℤ) : ℤ := max_subarray_go 0 0 array

/-- Sum of the contiguous window of `l` that skips `i` elements and takes `k`
elements: the specification-side notion of a contiguous subrange sum
(`k = 0` gives the empty subrange). -/
def windowSum (l : List ℤ) (i k : ℕ) : ℤ := ((l.drop i).take k).sum

/-- Maximum over all prefix sums of `l`, the empty prefix included. -/
def maxPref : List ℤ → ℤ
  | [] => 0
  | x :: l => max 0 (x + maxPref l)

/-- Maximum over all contiguous subrange sums of `l`, the empty one included. -/
def maxSub : List ℤ → ℤ
  | [] => 0
  | x :: l => max (maxPref (x :: l)) (maxSub l)

/-- Trajectory maximum of the `max_ending_here` recurrence started at `meh`. -/
def kadMax (meh : ℤ) : List ℤ → ℤ
  | [] => meh
  | x :: l => max meh (kadMax (max 0 (meh + x)) l)


/-! ### `padic` (base conversion) -/

/-- Python values a call `padic(n, p, ntype)` can produce: a string, an
integer, a list of characters, or `None` (the fall-through for an
unrecognised `ntype`). -/
inductive PyVal where
  | pystr (s : String)
  | pyint (n : ℕ)
  | pylist (l : List Char)
  | pynone
  deriving DecidableEq, Repr

/-- The digit alphabet `'0123456789' + ''.join(map(chr, range(65, 92)))`
(ten digits, the 26 uppercase letters and the character `'['`). -/
def padicBase : List Char :=
  "0123456789".toList ++ (List.range 27).map (fun i => Char.ofNat (65 + i))

/-- Digits of `n` in base `p`, least significant first: the `while` loop of
`padic` (`n, r = divmod(n, p)` until `n == 0`).  The loop does not terminate
for `p < 2` (and raises for `p = 0`), so those bases are mapped to `[]`. -/
def padicDigitsRev (n p : ℕ) : List ℕ :=
  if h : n = 0 ∨ p ≤ 1 then []
  else (n % p) :: padicDigitsRev (n / p) p
termination_by n
decreasing_by
  push_neg at h
  exact Nat.div_lt_self (Nat.pos_of_ne_zero h.1) h.2

/-- The string `snp` built by `padic`: digits mapped through the alphabet and
reversed (most significant first). -/
def padicStr (n p : ℕ) : String :=
  String.mk (((padicDigitsRev n p).map (fun r => padicBase.getD r ' ')).reverse)

/-- Python `int(s)` on the produced digit string: raises on the empty string
and on any non-decimal character, else parses the decimal value. -/
def pyIntOfString (s : String) : Except String ℕ :=
  if s.toList ≠ [] ∧ s.toList.all Char.isDigit then
    .ok (s.toList.foldl (fun acc c => 10 * acc + (c.toNat - 48)) 0)
  else
    .error "invalid literal for int() with base 10"

/-- `padic(n, p, ntype)` from `formula.py`: builds the base-`p` string and
returns it (`'s'`), its `int` (`'n'`), its character list (`'l'`), or `None`
for any other mode. -/
def padic (n p : ℕ) (ntype : Char) : Except String PyVal :=
  let snp := padicStr n p
  if ntype = 's' then .ok (.pystr snp)
  else if ntype = 'n' then (pyIntOfString snp).map .pyint
  else if ntype = 'l' then .ok (.pylist snp.toList)
  else .ok .pynone


/-! ### `inv_mod` (extended Euclid) -/

/-- The `while n != 0` loop of `inv_mod`: returns the final `(m, x0)`.
Each round performs `x0, x1 = x1, x0 - m // n * x1` and `m, n = n, m % n`. -/
def inv_mod_go (m n x0 x1 : ℤ) : ℤ × ℤ :=
  if h : n = 0 then (m, x0)
  else inv_mod_go n (m % n) x1 (x0 - m / n * x1)
termination_by n.natAbs
decreasing_by
  have h1 : 0 ≤ m % n := Int.emod_nonneg m h
  have h2 : m % n < |n| := by
    rcases lt_or_gt_of_ne h with hneg | hpos
    · calc m % n = m % (-n) := (Int.emod_neg m n).symm
        _ < -n := Int.emod_lt_of_pos m (by omega)
        _ = |n| := (abs_of_neg hneg).symm
    · calc m % n < n := Int.emod_lt_of_pos m hpos
        _ = |n| := (abs_of_pos hpos).symm
  rw [Int.abs_eq_natAbs] at h2
  omega

/-- `inv_mod(n, m)` from `formula.py`: reduces `n` mod `m`, returns `0` when
the reduced `n` is `0` or `m <= 0`, else runs the extended Euclid loop and
returns `x0 % m` when the final gcd is `1`, and `0` otherwise. -/
def inv_mod (n m : ℤ) : ℤ :=
  let n' := n % m
  if n' = 0 ∨ m ≤ 0 then 0
  else
    let r := inv_mod_go m n' 0 1
    if r.1 = 1 then r.2 % m else 0


/-! ### `iter_associate` -/

/-- The `while n` loop of `iter_associate`: if the low bit of `n` is set the
accumulator becomes `f x r`; then `n` is halved (`n >>= 1`) and the base is
squared (`x = f(x, x)`). -/
def iter_associate_go {α : Type} (f : α → α → α) (x : α) (n : ℕ) (r : α) : α :=
  if n = 0 then r
  else iter_associate_go f (f x x) (n / 2) (if n % 2 = 1 then f x r else r)
termination_by n
decreasing_by
  exact Nat.div_lt_self (Nat.pos_of_ne_zero (by assumption)) one_lt_two

/-- `iter_associate(f, x, n)` from `formula.py`: binary exponentiation,
starting from `n, r = n - 1, x`. -/
def iter_associate {α : Type} (f : α → α → α) (x : α) (n : ℕ) : α :=
  iter_associate_go f x (n - 1) x

/-- Naive `n`-fold application `f(f(...f(x, x)..., x), x)` (the `n`-th
`f`-power of `x`; for `n = 1` it is `x` itself). -/
def naive_iter_pow {α : Type} (f : α → α → α) (x : α) : ℕ → α
  | 0 => x
  | 1 => x
  | n + 2 => f (naive_iter_pow f x (n + 1)) x


/-! ### `fac_mod` -/

/-- The multiply-and-reduce loop of `fac_mod`: `output` after iterating
`output = output * i % m` for `i` in `2..k` (with `output = 1` for `k <= 1`). -/
def fac_mod_go (m : ℤ) : ℕ → ℤ
  | 0 => 1
  | 1 => 1
  | k + 2 => fac_mod_go m (k + 1) * (k + 2) % m

/-- `fac_mod(n, m)` from `formula.py`: raises for `n < 0`, returns `1`
immediately for `n` in `{0, 1}`, else reduces at every multiplication. -/
def fac_mod (n m : ℤ) : Except String ℤ :=
  if n < 0 then .error "n in n! must be positive!"
  else .ok (fac_mod_go m n.toNat)


/-! ### `sum_power_series_mod` -/

/-- `sum_power_series_mod(i, n, m)` from `formula.py`: Faulhaber closed forms
for the sum of `k^i`, `k = 1..n`, with the stated intermediate reductions
(`>> 1` is written `/ 2`). -/
def sum_power_series_mod (i : ℤ) (n m : ℕ) : ℕ :=
  if i = 0 then n
  else if i = 1 then
    let n := n % (2 * m)
    n * (n + 1) / 2 % m
  else if i = 2 then
    let n := n % (6 * m)
    let m3 := 3 * m
    let res := n * (n + 1) / 2 % m3
    res * ((2 * n + 1) % m3) % m3 / 3
  else if i = 3 then
    let n := n % (2 * m)
    let res := n * (n + 1) / 2 % m
    res * res % m
  else 0


/-! ### `sum_floor` -/

/-- Direct-summation loop of `sum_floor` (`for x in range(xmin, xmax+1)`),
expressed as a recursion on the iteration count. -/
def sum_floor_direct (n : ℕ) : ℕ → ℕ → ℕ
  | _, 0 => 0
  | x, k + 1 => n / x + sum_floor_direct n (x + 1) k

/-- Inverted-range loop of `sum_floor` for the regime `xmin >= isqrt(n)`:
walks quotient values, carrying `a1`; each round sets `a0 = a1`,
`a1 = n // (x+1)`, clamps to `ub`/`lb` and adds `(ub - lb) * x`. -/
def sum_floor_inv (n xmin xmax : ℕ) : ℕ → ℕ → ℕ → ℕ
  | _, _, 0 => 0
  | x, a1, k + 1 =>
    let a0 := a1
    let a1' := n / (x + 1)
    let ub := if a0 < xmax then a0 else xmax
    let lb := if xmin - 1 ≤ a1' then a1' else xmin - 1
    (ub - lb) * x + sum_floor_inv n xmin xmax (x + 1) a1' k

/-- Straddling-range loop of `sum_floor` (`for x in range(real_xmin, nrt+1)`):
adds `a0` when `x >= xmin` and the block `(ub - a1) * x` when `a1 < xmax`. -/
def sum_floor_mid (n xmin xmax : ℕ) : ℕ → ℕ → ℕ → ℕ
  | _, _, 0 => 0
  | x, a1, k + 1 =>
    let a0 := a1
    let a1' := n / (x + 1)
    (if xmin ≤ x then a0 else 0) +
      (if a1' < xmax then ((if a0 < xmax then a0 else xmax) - a1') * x else 0) +
      sum_floor_mid n xmin xmax (x + 1) a1' k

/-- `sum_floor(n, xmin, xmax)` from `formula.py`: sums `n // x` for
`x = xmin..xmax` in three regimes around `isqrt(n)` (`gmpy2.isqrt`, i.e.
`Nat.sqrt`).  After the straddling loop the leaked loop variable `x` equals
`nrt` (the loop is nonempty there), so the final boundary correction
`if x == n // x: res -= x` is the test `nrt = n / nrt`. -/
def sum_floor (n xmin xmax : ℕ) : ℕ :=
  let nrt := Nat.sqrt n
  if xmin > n then 0
  else
    let xmax' := if xmax > n then n else xmax
    if xmax' ≤ nrt then sum_floor_direct n xmin (xmax' + 1 - xmin)
    else if nrt ≤ xmin then
      let realxmin := n / xmax'
      let realxmax := n / xmin
      sum_floor_inv n xmin xmax' realxmin (n / realxmin) (realxmax + 1 - realxmin)
    else
      let realxmin0 := n / xmax'
      let realxmin := if realxmin0 > xmin then xmin else realxmin0
      let res := sum_floor_mid n xmin xmax' realxmin (n / realxmin) (nrt + 1 - realxmin)
      if nrt = n / nrt then res - nrt else res

/-- Naive reference sum for `sum_floor`. -/
def naiveSumFloor (n xmin xmax : ℕ) : ℕ := ∑ x ∈ Finset.Icc xmin xmax, n / x

/-- Python integer division `a // b` on naturals, raising `ZeroDivisionError`
(message as in CPython) when the divisor is zero. -/
def pydiv (a b : ℕ) : Except String ℕ :=
  if b = 0 then Except.error "integer division or modulo by zero" else Except.ok (a / b)

/-- Fallible form of the direct-summation loop of `sum_floor`: each iteration
performs the Python division `n // x`, which raises when `x = 0`.  The
accumulator is an integer, as in Python. -/
def sum_floor_directE (n : ℕ) : ℕ → ℕ → Except String ℤ
  | _, 0 => Except.ok 0
  | x, k + 1 =>
    match pydiv n x with
    | Except.error e => Except.error e
    | Except.ok d =>
      match sum_floor_directE n (x + 1) k with
      | Except.error e => Except.error e
      | Except.ok rest => Except.ok (↑d + rest)

/-- Fallible form of the inverted-range loop of `sum_floor`, with the
`ub`/`lb` clamps and the accumulated `(ub - lb) * x` computed over ℤ exactly
as Python computes them (in particular `xmin - 1` is not truncated at 0). -/
def sum_floor_invE (n xmin xmax : ℕ) : ℕ → ℕ → ℕ → Except String ℤ
  | _, _, 0 => Except.ok 0
  | x, a1, k + 1 =>
    match pydiv n (x + 1) with
    | Except.error e => Except.error e
    | Except.ok a1' =>
      let a0 := a1
      let ub : ℤ := if (a0 : ℤ) < xmax then a0 else xmax
      let lb : ℤ := if (xmin : ℤ) - 1 ≤ a1' then a1' else (xmin : ℤ) - 1
      match sum_floor_invE n xmin xmax (x + 1) a1' k with
      | Except.error e => Except.error e
      | Except.ok rest => Except.ok ((ub - lb) * x + rest)

/-- Fallible form of the straddling-range loop of `sum_floor`, over ℤ. -/
def sum_floor_midE (n xmin xmax : ℕ) : ℕ → ℕ → ℕ → Except String ℤ
  | _, _, 0 => Except.ok 0
  | x, a1, k + 1 =>
    match pydiv n (x + 1) with
    | Except.error e => Except.error e
    | Except.ok a1' =>
      let a0 := a1
      match sum_floor_midE n xmin xmax (x + 1) a1' k with
      | Except.error e => Except.error e
      | Except.ok rest =>
        Except.ok ((if xmin ≤ x then (a0 : ℤ) else 0) +
          (if a1' < xmax then ((if (a0 : ℤ) < xmax then (a0 : ℤ) else xmax) - a1') * x else 0) +
          rest)

/-- `sum_floor(n, xmin, xmax)` with every Python division made explicit, so a
zero divisor raises `ZeroDivisionError` exactly where Python would (in
particular every branch divides by `xmin`, or by a loop variable starting at
`min(xmin, n // xmax)`, so `xmin = 0` with `1 ≤ n` always raises).  Division
order follows the source. -/
def sum_floorE (n xmin xmax : ℕ) : Except String ℤ :=
  let nrt := Nat.sqrt n
  if xmin > n then Except.ok 0
  else
    let xmax' := if xmax > n then n else xmax
    if xmax' ≤ nrt then sum_floor_directE n xmin (xmax' + 1 - xmin)
    else if nrt ≤ xmin then
      match pydiv n xmax' with
      | Except.error e => Except.error e
      | Except.ok realxmin =>
        match pydiv n xmin with
        | Except.error e => Except.error e
        | Except.ok realxmax =>
          match pydiv n realxmin with
          | Except.error e => Except.error e
          | Except.ok a1 => sum_floor_invE n xmin xmax' realxmin a1 (realxmax + 1 - realxmin)
    else
      match pydiv n xmax' with
      | Except.error e => Except.error e
      | Except.ok realxmin0 =>
        let realxmin := if realxmin0 > xmin then xmin else realxmin0
        match pydiv n realxmin with
        | Except.error e => Except.error e
        | Except.ok a1 =>
          match sum_floor_midE n xmin xmax' realxmin a1 (nrt + 1 - realxmin) with
          | Except.error e => Except.error e
          | Except.ok res =>
            match pydiv n nrt with
            | Except.error e => Except.error e
            | Except.ok q => if nrt = q then Except.ok (res - ↑nrt) else Except.ok res

/-! ### Continued fractions -/

/-- `rational_continous_frac(p, q)` from `formula.py`: Euclidean expansion
`while p % q: append(p//q); p, q = q, p % q`, then — since `q` is nonzero on
exit — a final `cfrac.append(p)` (note: `p`, not `p // q`).  For `q <= 0` the
Python loop diverges or divides by zero; those inputs are mapped to `[]`. -/
def rational_continous_frac (p q : ℤ) : List ℤ :=
  if hq : q ≤ 0 then []
  else if p % q = 0 then [p]
  else p / q :: rational_continous_frac q (p % q)
termination_by q.toNat
decreasing_by
  have h1 : 0 ≤ p % q := Int.emod_nonneg p (by omega)
  have h2 : p % q < q := Int.emod_lt_of_pos p (by omega)
  omega

/-- Value of a finite continued fraction `[a0; a1, ..., ak]`. -/
def cfVal : List ℤ → ℚ
  | [] => 0
  | [a] => (a : ℚ)
  | a :: b :: l => a + (cfVal (b :: l))⁻¹

/-- Continuant of a term list (numerator of its continued-fraction value):
`K [] = 1`, `K [a] = a`, `K (a :: l) = a * K l + K l.tail`. -/
def contK : List ℤ → ℤ
  | [] => 1
  | [a] => a
  | a :: b :: l => a * contK (b :: l) + contK l

/-- Continuant of the tail: `0` for `[]`, else `contK` of the tail. -/
def contKd : List ℤ → ℤ
  | [] => 0
  | _ :: l => contK l

/-- Python `Fraction(p, q)`: reduces to lowest terms, raising
`ZeroDivisionError` when `q = 0`.  `ℚ` is the canonical lowest-terms form. -/
def mkFrac (p q : ℤ) : Except String ℚ :=
  if q = 0 then .error "division by zero" else .ok ((p : ℚ) / (q : ℚ))

/-- The `for a in cfrac[2:]` loop of `continous_frac_convergent`: carries
`(p0, p1, q0, q1)`, appending `Fraction(a*p1 + p0, a*q1 + q0)` each round
(the first zero denominator raises, as `Fraction` does). -/
def cfcGo (p0 p1 q0 q1 : ℤ) : List ℤ → Except String (List ℚ)
  | [] => .ok []
  | a :: l =>
    match mkFrac (a * p1 + p0) (a * q1 + q0) with
    | .error e => .error e
    | .ok f =>
      match cfcGo p1 (a * p1 + p0) q1 (a * q1 + q0) l with
      | .error e => .error e
      | .ok rest => .ok (f :: rest)

/-- `continous_frac_convergent(cfrac)` from `formula.py`: requires at least
two terms, seeds `p0, p1, q0, q1 = a0, a0*a1+1, 1, a1` and iterates the
convergent recurrence, collecting `Fraction` values. -/
def continous_frac_convergent (cfrac : List ℤ) : Except String (List ℚ) :=
  match cfrac with
  | a0 :: a1 :: rest =>
    match mkFrac a0 1, mkFrac (a0 * a1 + 1) a1 with
    | .error e, _ => .error e
    | _, .error e => .error e
    | .ok f0, .ok f1 =>
      match cfcGo a0 (a0 * a1 + 1) 1 a1 rest with
      | .error e => .error e
      | .ok r => .ok (f0 :: f1 :: r)
  | _ => .error "Continued fraction must longer than 2!"

/-- Numerator sequence of the claimed convergent recurrence over `cfrac`:
`p0 = a0`, `p1 = a0*a1 + 1`, `p[k] = a[k]*p[k-1] + p[k-2]`. -/
def cfP (l : List ℤ) : ℕ → ℤ
  | 0 => l.getD 0 0
  | 1 => l.getD 0 0 * l.getD 1 0 + 1
  | k + 2 => l.getD (k + 2) 0 * cfP l (k + 1) + cfP l k

/-- Denominator sequence of the claimed convergent recurrence over `cfrac`:
`q0 = 1`, `q1 = a1`, `q[k] = a[k]*q[k-1] + q[k-2]`. -/
def cfQ (l : List ℤ) : ℕ → ℤ
  | 0 => 1
  | 1 => l.getD 1 0
  | k + 2 => l.getD (k + 2) 0 * cfQ l (k + 1) + cfQ l k

/-- Floor of `b * √d` computed exactly with integer arithmetic (exact for
irrational `√d`, and also for `b = 0`). -/
def floorMulSqrt (b : ℤ) (d : ℕ) : ℤ :=
  if 0 ≤ b then (Nat.sqrt (b.natAbs ^ 2 * d) : ℤ)
  else -(Nat.sqrt (b.natAbs ^ 2 * d) : ℤ) - 1

/-- Floor of `r + s * √d` for rationals `r`, `s`: written as
`(a + b√d) / c` over the common positive denominator `c` and floored with
integer arithmetic (exact when `s ≠ 0` and `d` is not a perfect square). -/
def floorQuadratic (r s : ℚ) (d : ℕ) : ℤ :=
  let c : ℤ := (r.den : ℤ) * (s.den : ℤ)
  let a : ℤ := r.num * (s.den : ℤ)
  let b : ℤ := s.num * (r.den : ℤ)
  Int.fdiv (a + floorMulSqrt b d) c

/-- The partial quotient `a = int((p + sd) / q)` of the source, with the
floating-point `sd = sqrt(d)` idealised to the exact real `√d`: Python `int`
truncates toward zero, so this is `⌊v⌋` for `v ≥ 0` and `-⌊-v⌋` otherwise,
where `v = (p + √d)/q = p/q + (1/q)·√d`. -/
def pyIntQuadratic (p q : ℚ) (d : ℕ) : ℤ :=
  if q = 0 then 0
  else
    let f := floorQuadratic (p / q) q⁻¹ d
    if 0 ≤ f then f else -floorQuadratic (-(p / q)) (-q⁻¹) d

/-- The `for _ in range(limit)` loop of `irrational_continous_frac`: steps
`p = a*q - p`, `q = (d - p*p) / q`, `a = int((p + sd)/q)` (all in exact
rational arithmetic as in the source, which uses `Fraction`); on seeing a
previously recorded pair `(p, q)` at index `i` it returns
`(repetend[:i+1], repetend[i+1:])`, the preperiodic part and the repetend;
exhausting `limit` raises the resource error. -/
def irrational_continous_frac_go (d : ℕ) (p q : ℚ) (a : ℤ)
    (pairs : List (ℚ × ℚ)) (rep : List ℤ) : ℕ → Except String (List ℤ × List ℤ)
  | 0 => .error "Repetend is longer than limit, please try higher limit!"
  | fuel + 1 =>
    let p' := a * q - p
    let q' := ((d : ℚ) - p' * p') / q
    let a' := pyIntQuadratic p' q' d
    if (p', q') ∈ pairs then
      let i := pairs.indexOf (p', q')
      .ok (rep.take (i + 1), rep.drop (i + 1))
    else
      irrational_continous_frac_go d p' q' a' (pairs ++ [(p', q')]) (rep ++ [a']) fuel

/-- `irrational_continous_frac(d, p, q, limit)` from `formula.py`: expansion
of `(p + √d)/q`.  Raises `"D is perfect square!"` when `d` is a perfect
square (the float test `int(sd)*int(sd) == d` idealised exactly); `q = 0`
would raise `ZeroDivisionError` at the initial partial quotient. -/
def irrational_continous_frac (d : ℕ) (p q : ℤ) (limit : ℕ) :
    Except String (List ℤ × List ℤ) :=
  if Nat.sqrt d * Nat.sqrt d = d then .error "D is perfect square!"
  else if q = 0 then .error "division by zero"
  else
    let a := pyIntQuadratic (p : ℚ) (q : ℚ) d
    irrational_continous_frac_go d (p : ℚ) (q : ℚ) a [] [a] limit


/-! ## Theorems -/

/-! ### Kadane scan (`max_subarray`) -/

theorem kadMax_ge (l : List ℤ) : ∀ meh : ℤ, meh ≤ kadMax meh l := by
  induction l with
  | nil => intro meh; exact le_refl _
  | cons x l ih => intro meh; exact le_max_left _ _

theorem max_subarray_go_eq (l : List ℤ) :
    ∀ msf meh : ℤ, meh ≤ msf → max_subarray_go msf meh l = max msf (kadMax meh l) := by
  induction l with
  | nil => intro msf meh h; simp [max_subarray_go, kadMax, max_eq_left h]
  | cons x l ih =>
    intro msf meh h
    simp only [max_subarray_go, kadMax]
    rw [ih (max msf (max 0 (meh + x))) (max 0 (meh + x)) (le_max_right _ _)]
    have h1 := kadMax_ge l (max 0 (meh + x))
    omega

theorem maxPref_nonneg (l : List ℤ) : 0 ≤ maxPref l := by
  cases l with
  | nil => exact le_refl 0
  | cons x l => exact le_max_left _ _

theorem maxPref_le_maxSub (l : List ℤ) : maxPref l ≤ maxSub l := by
  cases l with
  | nil => exact le_refl 0
  | cons x l => exact le_max_left _ _

theorem maxSub_nonneg (l : List ℤ) : 0 ≤ maxSub l :=
  le_trans (maxPref_nonneg l) (maxPref_le_maxSub l)

theorem kadMax_eq (l : List ℤ) :
    ∀ meh : ℤ, 0 ≤ meh → kadMax meh l = max (meh + maxPref l) (maxSub l) := by
  induction l with
  | nil => intro meh h; simp [kadMax, maxPref, maxSub, max_eq_left h]
  | cons x l ih =>
    intro meh h
    simp only [kadMax]
    rw [ih (max 0 (meh + x)) (le_max_left _ _)]
    have h1 := maxPref_nonneg l
    have h2 := maxPref_le_maxSub l
    simp only [maxPref, maxSub]
    omega

theorem max_subarray_eq_maxSub (l : List ℤ) : max_subarray l = maxSub l := by
  unfold max_subarray
  rw [max_subarray_go_eq l 0 0 (le_refl 0), kadMax_eq l 0 (le_refl 0)]
  have h1 := maxPref_nonneg l
  have h2 := maxPref_le_maxSub l
  omega

theorem take_sum_le_maxPref (l : List ℤ) : ∀ k : ℕ, (l.take k).sum ≤ maxPref l := by
  induction l with
  | nil => intro k; simp [maxPref]
  | cons x l ih =>
    intro k
    cases k with
    | zero => simpa using maxPref_nonneg (x :: l)
    | succ k =>
      simp only [List.take_succ_cons, List.sum_cons, maxPref]
      have := ih k
      omega

theorem windowSum_le_maxSub (l : List ℤ) : ∀ i k : ℕ, windowSum l i k ≤ maxSub l := by
  induction l with
  | nil => intro i k; simp [windowSum, maxSub]
  | cons x l ih =>
    intro i k
    cases i with
    | zero =>
      have h := take_sum_le_maxPref (x :: l) k
      have h2 := maxPref_le_maxSub (x :: l)
      simpa [windowSum] using le_trans h h2
    | succ i =>
      have h := ih i k
      simp only [windowSum, List.drop_succ_cons] at h ⊢
      calc ((l.drop i).take k).sum ≤ maxSub l := h
        _ ≤ maxSub (x :: l) := le_max_right _ _

theorem maxPref_attained (l : List ℤ) : ∃ k : ℕ, (l.take k).sum = maxPref l := by
  induction l with
  | nil => exact ⟨0, rfl⟩
  | cons x l ih =>
    obtain ⟨k, hk⟩ := ih
    rcases max_cases 0 (x + maxPref l) with ⟨h1, _⟩ | ⟨h1, _⟩
    · exact ⟨0, by simp [maxPref, h1]⟩
    · exact ⟨k + 1, by simp only [List.take_succ_cons, List.sum_cons, maxPref, h1, hk]⟩

theorem maxSub_attained (l : List ℤ) : ∃ i k : ℕ, windowSum l i k = maxSub l := by
  induction l with
  | nil => exact ⟨0, 0, rfl⟩
  | cons x l ih =>
    rcases max_cases (maxPref (x :: l)) (maxSub l) with ⟨h1, _⟩ | ⟨h1, _⟩
    · obtain ⟨k, hk⟩ := maxPref_attained (x :: l)
      exact ⟨0, k, by simpa [windowSum, maxSub] using hk.trans h1.symm⟩
    · obtain ⟨i, k, hik⟩ := ih
      refine ⟨i + 1, k, ?_⟩
      simpa [windowSum, maxSub, List.drop_succ_cons, h1] using hik

/-- C9 counterexample: the claim asserts `max_subarray([2, -1, 3, -4, 5]) = 6`,
but the scan returns `5` — which is the correct maximum contiguous sum of that
array (`[5]` and the whole array both sum to `5`; no window sums to `6`). -/
theorem max_subarray_example_counterexample :
    max_subarray [2, -1, 3, -4, 5] ≠ 6 ∧ max_subarray [2, -1, 3, -4, 5] = 5 := by
  refine ⟨by decide, by decide⟩

/-- C9 (amended): `max_subarray(array)` returns the maximum sum over any
contiguous subrange including the empty subrange (so it is an upper bound of
all window sums, is attained by some window, and is never negative), and in
particular `max_subarray([]) = 0`, `max_subarray([-1,-2,-3]) = 0`,
`max_subarray([2,-1,3,-4,5]) = 5` (the claim stated `6`). -/
theorem max_subarray_spec :
    (∀ (l : List ℤ) (i k : ℕ), windowSum l i k ≤ max_subarray l) ∧
    (∀ l : List ℤ, ∃ i k : ℕ, windowSum l i k = max_subarray l) ∧
    (∀ l : List ℤ, 0 ≤ max_subarray l) ∧
    max_subarray [] = 0 ∧ max_subarray [-1, -2, -3] = 0 ∧
    max_subarray [2, -1, 3, -4, 5] = 5 := by
  refine ⟨?_, ?_, ?_, by decide, by decide, by decide⟩
  · intro l i k
    rw [max_subarray_eq_maxSub]
    exact windowSum_le_maxSub l i k
  · intro l
    rw [max_subarray_eq_maxSub]
    exact maxSub_attained l
  · intro l
    rw [max_subarray_eq_maxSub]
    exact maxSub_nonneg l

/-! ### `padic` at the zero input -/

theorem padicDigitsRev_zero (p : ℕ) : padicDigitsRev 0 p = [] := by
  rw [padicDigitsRev]
  simp

/-- C10: for any base `p ≥ 2`, `padic(0, p, 's')` is the empty string (not
`"0"`), `padic(0, p, 'l')` is the empty list, and `padic(0, p, 'n')` fails
(Python `int('')` raises) — the zero input produces no digits at all. -/
theorem padic_zero_spec (p : ℕ) (hp : 2 ≤ p) :
    padic 0 p 's' = .ok (.pystr "") ∧ padic 0 p 'l' = .ok (.pylist []) ∧
    ∃ e, padic 0 p 'n' = .error e := by
  have hs : padicStr 0 p = "" := by
    simp [padicStr, padicDigitsRev_zero]
  refine ⟨by simp [padic, hs], by simp [padic, hs], ?_⟩
  refine ⟨"invalid literal for int() with base 10", ?_⟩
  simp [padic, hs, pyIntOfString, Except.map]

/-- C10 witness: the three behaviours at the concrete base `p = 10`. -/
theorem padic_zero_spec_witness :
    padic 0 10 's' = .ok (.pystr "") ∧ padic 0 10 'l' = .ok (.pylist []) ∧
    ∃ e, padic 0 10 'n' = .error e :=
  padic_zero_spec 10 (by norm_num)

/-! ### `inv_mod` -/

theorem int_gcd_emod (m n : ℤ) : Int.gcd n (m % n) = Int.gcd m n := by
  have hm : m = n * (m / n) + m % n := (Int.ediv_add_emod m n).symm
  apply Nat.dvd_antisymm
  · apply Int.natCast_dvd_natCast.mp
    apply Int.dvd_gcd
    · calc (Int.gcd n (m % n) : ℤ) ∣ n * (m / n) + m % n :=
        dvd_add (Dvd.dvd.mul_right Int.gcd_dvd_left _) Int.gcd_dvd_right
        _ = m := hm.symm
    · exact Int.gcd_dvd_left
  · apply Int.natCast_dvd_natCast.mp
    apply Int.dvd_gcd Int.gcd_dvd_right
    calc (Int.gcd m n : ℤ) ∣ m - n * (m / n) :=
      dvd_sub Int.gcd_dvd_left (Dvd.dvd.mul_right Int.gcd_dvd_right _)
      _ = m % n := (Int.emod_def m n).symm

theorem inv_mod_go_spec (m n x0 x1 : ℤ) (hm : 0 ≤ m) (hn : 0 ≤ n) :
    (inv_mod_go m n x0 x1).1 = (Int.gcd m n : ℤ) ∧
    ∀ m0 n0 : ℤ, m ≡ x0 * n0 [ZMOD m0] → n ≡ x1 * n0 [ZMOD m0] →
      (Int.gcd m n : ℤ) ≡ (inv_mod_go m n x0 x1).2 * n0 [ZMOD m0] := by
  induction m, n, x0, x1 using inv_mod_go.induct with
  | case1 m x0 x1 =>
    rw [inv_mod_go]
    simp only [dif_pos rfl]
    constructor
    · simp [Int.gcd_zero_right, abs_of_nonneg hm, Int.abs_eq_natAbs]
    · intro m0 n0 h0 _
      have : (Int.gcd m 0 : ℤ) = m := by
        simp [Int.gcd_zero_right, ← Int.abs_eq_natAbs, abs_of_nonneg hm]
      rw [this]
      exact h0
  | case2 m n x0 x1 h ih =>
    have hn' : 0 ≤ m % n := Int.emod_nonneg m h
    have hg : Int.gcd n (m % n) = Int.gcd m n := int_gcd_emod m n
    rw [inv_mod_go]
    simp only [dif_neg h]
    obtain ⟨ih1, ih2⟩ := ih hn hn'
    refine ⟨by rw [ih1, hg], ?_⟩
    intro m0 n0 h0 h1
    have hstep : m % n ≡ (x0 - m / n * x1) * n0 [ZMOD m0] := by
      rw [Int.emod_def m n]
      calc m - n * (m / n) ≡ x0 * n0 - n * (m / n) [ZMOD m0] := Int.ModEq.sub_right _ h0
        _ ≡ x0 * n0 - x1 * n0 * (m / n) [ZMOD m0] := by
            exact Int.ModEq.sub_left _ (Int.ModEq.mul_right _ h1)
        _ = (x0 - m / n * x1) * n0 := by ring
    have := ih2 m0 n0 h1 hstep
    rw [hg] at this
    exact this

unseal inv_mod_go in
theorem inv_mod_ex1 : inv_mod 3 7 = 5 := by decide

unseal inv_mod_go in
theorem inv_mod_ex2 : inv_mod 2 4 = 0 := by decide

/-- C5: for `m > 0`, if `gcd(n, m) = 1` then `inv_mod(n, m)` is the modular
inverse of `n` mod `m` (`n * inv_mod(n, m) ≡ 1 (mod m)`, and the result lies
in `[0, m)`), negative and oversized `n` being handled by the initial
reduction; if `gcd(n, m) ≠ 1` it returns `0`; and in particular
`inv_mod(3, 7) = 5` and `inv_mod(2, 4) = 0`. -/
theorem inv_mod_spec :
    (∀ n m : ℤ, 0 < m →
      (Int.gcd n m = 1 →
        n * inv_mod n m ≡ 1 [ZMOD m] ∧ 0 ≤ inv_mod n m ∧ inv_mod n m < m) ∧
      (Int.gcd n m ≠ 1 → inv_mod n m = 0)) ∧
    inv_mod 3 7 = 5 ∧ inv_mod 2 4 = 0 := by
  refine ⟨?_, ?_, ?_⟩
  · intro n m hm
    by_cases h0 : n % m = 0
    · have hdvd : m ∣ n := Int.dvd_of_emod_eq_zero h0
      have hg : (Int.gcd n m : ℤ) = m := by
        rw [Int.gcd_eq_right hdvd]
        exact Int.natAbs_of_nonneg (le_of_lt hm)
      have hv : inv_mod n m = 0 := by
        simp [inv_mod, h0]
      constructor
      · intro h1
        have hm1 : m = 1 := by
          rw [h1] at hg
          omega
        subst hm1
        exact ⟨Int.modEq_one, by simp [hv]⟩
      · intro _
        exact hv
    · have hnm : 0 ≤ n % m := Int.emod_nonneg n (by omega)
      obtain ⟨hgcd, hbez⟩ := inv_mod_go_spec m (n % m) 0 1 (le_of_lt hm) hnm
      have hg : Int.gcd m (n % m) = Int.gcd n m := int_gcd_emod n m
      have hunfold : inv_mod n m =
          if (inv_mod_go m (n % m) 0 1).1 = 1 then (inv_mod_go m (n % m) 0 1).2 % m
          else 0 := by
        simp [inv_mod, h0, not_le_of_lt hm]
      constructor
      · intro h1
        have hone : (inv_mod_go m (n % m) 0 1).1 = 1 := by
          rw [hgcd, hg, h1]
          norm_num
        rw [hunfold, if_pos hone]
        have hb := hbez m (n % m)
          (by simpa using Int.modEq_zero_iff_dvd.mpr (dvd_refl m))
          (by simpa using Int.ModEq.refl (n % m))
        rw [hg, h1] at hb
        have hmod : n % m ≡ n [ZMOD m] := Int.emod_emod_of_dvd n (dvd_refl m)
        refine ⟨?_, Int.emod_nonneg _ (by omega), Int.emod_lt_of_pos _ hm⟩
        have hr : (inv_mod_go m (n % m) 0 1).2 % m ≡ (inv_mod_go m (n % m) 0 1).2 [ZMOD m] :=
          Int.emod_emod_of_dvd _ (dvd_refl m)
        calc n * ((inv_mod_go m (n % m) 0 1).2 % m)
            ≡ n * (inv_mod_go m (n % m) 0 1).2 [ZMOD m] := Int.ModEq.mul_left _ hr
          _ ≡ (n % m) * (inv_mod_go m (n % m) 0 1).2 [ZMOD m] :=
              Int.ModEq.mul_right _ hmod.symm
          _ = (inv_mod_go m (n % m) 0 1).2 * (n % m) := by ring
          _ ≡ 1 [ZMOD m] := hb.symm
      · intro h1
        rw [hunfold, if_neg ?_]
        rw [hgcd, hg]
        intro hc
        apply h1
        have : ((Int.gcd n m : ℤ)) = 1 := hc
        omega
  · exact inv_mod_ex1
  · exact inv_mod_ex2

/-- C5 witness: the theorem applied at `n = 3`, `m = 7` (coprime inputs),
with the evaluations `inv_mod 3 7 = 5` and `inv_mod 2 4 = 0` forming part of
the theorem itself. -/
theorem inv_mod_spec_witness :
    (3 : ℤ) * inv_mod 3 7 ≡ 1 [ZMOD 7] ∧ inv_mod 2 4 = 0 :=
  ⟨((inv_mod_spec.1 3 7 (by norm_num)).1 (by decide)).1, inv_mod_spec.2.2⟩

/-! ### `iter_associate` -/

theorem naive_iter_pow_succ {α : Type} (f : α → α → α) (x : α) (n : ℕ) (h : 1 ≤ n) :
    naive_iter_pow f x (n + 1) = f (naive_iter_pow f x n) x := by
  cases n with
  | zero => omega
  | succ n => rfl

theorem naive_iter_pow_double {α : Type} (f : α → α → α)
    (hf : ∀ a b c, f a (f b c) = f (f a b) c) (x : α) :
    ∀ k : ℕ, 1 ≤ k → naive_iter_pow f (f x x) k = naive_iter_pow f x (2 * k) := by
  intro k
  induction k with
  | zero => intro h; omega
  | succ k ih =>
    intro _
    rcases Nat.eq_zero_or_pos k with hk | hk
    · subst hk
      rfl
    · rw [naive_iter_pow_succ f (f x x) k hk, ih hk,
        show 2 * (k + 1) = 2 * k + 1 + 1 by ring,
        naive_iter_pow_succ f x (2 * k + 1) (by omega),
        naive_iter_pow_succ f x (2 * k) (by omega), hf]

theorem iter_associate_go_spec {α : Type} (f : α → α → α)
    (hf : ∀ a b c, f a (f b c) = f (f a b) c) :
    ∀ m : ℕ, 1 ≤ m → ∀ y r : α,
      iter_associate_go f y m r = f (naive_iter_pow f y m) r := by
  intro m
  induction m using Nat.strong_induction_on with
  | _ m ih =>
    intro hm y r
    rcases Nat.lt_or_ge m 2 with hm2 | hm2
    · have : m = 1 := by omega
      subst this
      rw [iter_associate_go]
      norm_num
      rw [iter_associate_go]
      rfl
    · rw [iter_associate_go, if_neg (by omega)]
      rcases Nat.even_or_odd m with he | ho
      · have hmod : ¬(m % 2 = 1) := by
          rcases he with ⟨t, ht⟩
          omega
      -- even case
        rw [if_neg hmod,
          ih (m / 2) (Nat.div_lt_self (by omega) one_lt_two) (by omega) (f y y) r,
          naive_iter_pow_double f hf y (m / 2) (by omega)]
        congr 1
        congr 1
        omega
      · have hmod : m % 2 = 1 := by
          rcases ho with ⟨t, ht⟩
          omega
        rw [if_pos hmod,
          ih (m / 2) (Nat.div_lt_self (by omega) one_lt_two) (by omega) (f y y) (f y r),
          naive_iter_pow_double f hf y (m / 2) (by omega), hf,
          show 2 * (m / 2) = m - 1 by omega,
          ← naive_iter_pow_succ f y (m - 1) (by omega),
          show m - 1 + 1 = m by omega]

/-- C6: for every associative binary operator `f`, every `x` and every
`n ≥ 1`, `iter_associate(f, x, n)` (binary exponentiation over the bits of
`n`) equals the naive left-fold `f(f(...f(x, x)..., x), x)` of `f` applied
`n` times to `x` (for `n = 1` the result is `x` itself). -/
theorem iter_associate_spec {α : Type} (f : α → α → α)
    (hf : ∀ a b c, f a (f b c) = f (f a b) c) (x : α) (n : ℕ) (hn : 1 ≤ n) :
    iter_associate f x n = naive_iter_pow f x n := by
  unfold iter_associate
  match n, hn with
  | 1, _ =>
    rw [iter_associate_go]
    rfl
  | (k + 2), _ =>
    rw [show k + 2 - 1 = k + 1 by omega,
      iter_associate_go_spec f hf (k + 1) (by omega) x x,
      ← naive_iter_pow_succ f x (k + 1) (by omega)]

unseal iter_associate_go in
theorem iter_associate_ex : iter_associate (fun a b : ℕ => a + b) 2 5 = 10 := by decide

/-- C6 witness: the theorem applied to the associative operator `+` on `ℕ`
at `x = 2`, `n = 5`, together with the concrete evaluation
`iter_associate (+) 2 5 = 10 = naive_iter_pow (+) 2 5`. -/
theorem iter_associate_spec_witness :
    iter_associate (fun a b : ℕ => a + b) 2 5 = naive_iter_pow (fun a b : ℕ => a + b) 2 5 ∧
    iter_associate (fun a b : ℕ => a + b) 2 5 = 10 :=
  ⟨iter_associate_spec (fun a b : ℕ => a + b)
      (fun a b c => (Nat.add_assoc a b c).symm) 2 5 (by norm_num),
    iter_associate_ex⟩

/-! ### `fac_mod` -/

theorem fac_mod_go_spec (m : ℤ) (hm : 1 < m) :
    ∀ k : ℕ, fac_mod_go m k = (k.factorial : ℤ) % m := by
  intro k
  induction k using Nat.strong_induction_on with
  | _ k ih =>
    match k with
    | 0 =>
      rw [fac_mod_go, Nat.factorial]
      rw [Int.emod_eq_of_lt (by omega) (by omega)]
      rfl
    | 1 =>
      rw [fac_mod_go, Nat.factorial, Nat.factorial]
      rw [Int.emod_eq_of_lt (by omega) (by omega)]
      rfl
    | (k + 2) =>
      rw [fac_mod_go, ih (k + 1) (by omega)]
      have h2 : (((k + 2 : ℕ)).factorial : ℤ) = ((k + 1).factorial : ℤ) * ((k : ℤ) + 2) := by
        rw [Nat.factorial_succ]
        push_cast
        ring
      rw [h2]
      have hme : ((k + 1).factorial : ℤ) % m ≡ ((k + 1).factorial : ℤ) [ZMOD m] :=
        Int.emod_emod_of_dvd _ (dvd_refl m)
      exact hme.mul_right _

/-- C7 counterexample: the claim says `fac_mod(n, m)` returns `n! mod m` for
every `n ≥ 0` and `m > 0`, but `fac_mod(0, 1)` returns `1`, while
`0! mod 1 = 0` (the early return for `n ≤ 1` skips the reduction). -/
theorem fac_mod_m_one_counterexample :
    fac_mod 0 1 = .ok 1 ∧ ((0 : ℤ).toNat.factorial : ℤ) % 1 = 0 ∧ (1 : ℤ) ≠ 0 :=
  ⟨rfl, by decide, by decide⟩

/-- C7 (amended): `fac_mod(n, m)` raises a domain error iff `n < 0`; for
`n ≥ 0` and `m > 1` it returns `n! mod m` (intermediates reduced mod `m`
every step); for `m = 1` and `n ≤ 1` it returns `1` (not `0! mod 1 = 0`,
the early return skipping the reduction), while for `n ≥ 2` it returns
`n! mod 1 = 0`. -/
theorem fac_mod_spec :
    (∀ n m : ℤ, (∃ e, fac_mod n m = .error e) ↔ n < 0) ∧
    (∀ n m : ℤ, 0 ≤ n → 1 < m → fac_mod n m = .ok ((n.toNat.factorial : ℤ) % m)) ∧
    (∀ n : ℤ, 0 ≤ n → n ≤ 1 → fac_mod n 1 = .ok 1) ∧
    (∀ n : ℤ, 2 ≤ n → fac_mod n 1 = .ok ((n.toNat.factorial : ℤ) % 1)) := by
  refine ⟨?_, ?_, ?_, ?_⟩
  · intro n m
    constructor
    · rintro ⟨e, he⟩
      by_contra hn
      simp [fac_mod, hn] at he
    · intro hn
      exact ⟨"n in n! must be positive!", by simp [fac_mod, hn]⟩
  · intro n m hn hm
    rw [fac_mod, if_neg (by omega)]
    rw [fac_mod_go_spec m hm n.toNat]
  · intro n hn hn1
    have : n.toNat = 0 ∨ n.toNat = 1 := by omega
    rcases this with h | h <;>
      simp [fac_mod, not_lt.mpr hn, h, fac_mod_go]
  · intro n hn
    rw [fac_mod, if_neg (by omega)]
    have h2 : ∃ k : ℕ, n.toNat = k + 2 := ⟨n.toNat - 2, by omega⟩
    rcases h2 with ⟨k, hk⟩
    rw [hk, fac_mod_go]
    simp [Int.emod_one]

/-- C7 witness: the theorem applied at `n = 4`, `m = 5`, evaluating to
`4! mod 5 = 4`, and at `n = -2` producing the domain error. -/
theorem fac_mod_spec_witness :
    fac_mod 4 5 = .ok 4 ∧ (∃ e, fac_mod (-2) 5 = .error e) :=
  ⟨by rw [fac_mod_spec.2.1 4 5 (by norm_num) (by norm_num)]; rfl,
    (fac_mod_spec.1 (-2) 5).mpr (by norm_num)⟩

/-! ### `sum_power_series_mod` -/

theorem two_mul_sum_Icc_id (n : ℕ) :
    2 * (∑ k ∈ Finset.Icc 1 n, k) = n * (n + 1) := by
  induction n with
  | zero => simp
  | succ n ih =>
    rw [Finset.sum_Icc_succ_top (by omega), Nat.mul_add, ih]
    ring

theorem six_mul_sum_Icc_sq (n : ℕ) :
    6 * (∑ k ∈ Finset.Icc 1 n, k ^ 2) = n * (n + 1) * (2 * n + 1) := by
  induction n with
  | zero => simp
  | succ n ih =>
    rw [Finset.sum_Icc_succ_top (by omega), Nat.mul_add, ih]
    ring

theorem sum_Icc_cube_eq_sq (n : ℕ) :
    ∑ k ∈ Finset.Icc 1 n, k ^ 3 = (∑ k ∈ Finset.Icc 1 n, k) ^ 2 := by
  induction n with
  | zero => simp
  | succ n ih =>
    rw [Finset.sum_Icc_succ_top (by omega), Finset.sum_Icc_succ_top (by omega), ih]
    have h2 := two_mul_sum_Icc_id n
    nlinarith [h2]

theorem sum_Icc_id_mod (n m : ℕ) :
    (∑ k ∈ Finset.Icc 1 n, k) % m = (∑ k ∈ Finset.Icc 1 (n % (2 * m)), k) % m := by
  have hmod : Nat.ModEq (2 * m) n (n % (2 * m)) :=
    (Nat.mod_mod_of_dvd n (dvd_refl (2 * m))).symm
  have key : 2 * ((∑ k ∈ Finset.Icc 1 n, k) % m) =
      2 * ((∑ k ∈ Finset.Icc 1 (n % (2 * m)), k) % m) := by
    calc 2 * ((∑ k ∈ Finset.Icc 1 n, k) % m)
        = (2 * ∑ k ∈ Finset.Icc 1 n, k) % (2 * m) := (Nat.mul_mod_mul_left 2 _ m).symm
      _ = (n * (n + 1)) % (2 * m) := by rw [two_mul_sum_Icc_id]
      _ = ((n % (2 * m)) * ((n % (2 * m)) + 1)) % (2 * m) := hmod.mul (hmod.add_right 1)
      _ = (2 * ∑ k ∈ Finset.Icc 1 (n % (2 * m)), k) % (2 * m) := by rw [two_mul_sum_Icc_id]
      _ = 2 * ((∑ k ∈ Finset.Icc 1 (n % (2 * m)), k) % m) := Nat.mul_mod_mul_left 2 _ m
  omega

theorem sum_Icc_sq_mod (n m : ℕ) :
    (∑ k ∈ Finset.Icc 1 n, k ^ 2) % m = (∑ k ∈ Finset.Icc 1 (n % (6 * m)), k ^ 2) % m := by
  have hmod : Nat.ModEq (6 * m) n (n % (6 * m)) :=
    (Nat.mod_mod_of_dvd n (dvd_refl (6 * m))).symm
  have key : 6 * ((∑ k ∈ Finset.Icc 1 n, k ^ 2) % m) =
      6 * ((∑ k ∈ Finset.Icc 1 (n % (6 * m)), k ^ 2) % m) := by
    calc 6 * ((∑ k ∈ Finset.Icc 1 n, k ^ 2) % m)
        = (6 * ∑ k ∈ Finset.Icc 1 n, k ^ 2) % (6 * m) := (Nat.mul_mod_mul_left 6 _ m).symm
      _ = (n * (n + 1) * (2 * n + 1)) % (6 * m) := by rw [six_mul_sum_Icc_sq]
      _ = ((n % (6 * m)) * ((n % (6 * m)) + 1) * (2 * (n % (6 * m)) + 1)) % (6 * m) :=
          ((hmod.mul (hmod.add_right 1)).mul ((Nat.ModEq.mul_left 2 hmod).add_right 1))
      _ = (6 * ∑ k ∈ Finset.Icc 1 (n % (6 * m)), k ^ 2) % (6 * m) := by rw [six_mul_sum_Icc_sq]
      _ = 6 * ((∑ k ∈ Finset.Icc 1 (n % (6 * m)), k ^ 2) % m) := Nat.mul_mod_mul_left 6 _ m
  omega

theorem gauss_div (n : ℕ) : n * (n + 1) / 2 = ∑ k ∈ Finset.Icc 1 n, k := by
  have := two_mul_sum_Icc_id n
  omega

/-- C2 counterexample: for `i = 0` the code returns `n` unreduced:
`sum_power_series_mod(0, 5, 3) = 5`, while `(Σ_{k=1}^{5} k^0) mod 3 = 2`. -/
theorem sum_power_series_mod_zero_counterexample :
    sum_power_series_mod 0 5 3 = 5 ∧ (∑ k ∈ Finset.Icc 1 5, k ^ 0) % 3 = 2 ∧
    (5 : ℕ) ≠ 2 :=
  ⟨rfl, by decide, by decide⟩

/-- C2 (amended): for `i ∈ {1, 2, 3}`, every `n ≥ 0` and every `m`,
`sum_power_series_mod(i, n, m)` returns `(Σ_{k=1}^{n} k^i) mod m` via the
Faulhaber closed forms with the stated intermediate reductions; for `i = 0`
it returns `n` itself, NOT reduced mod `m`; for `i` outside `{0, 1, 2, 3}`
it returns `0`. -/
theorem sum_power_series_mod_spec (i : ℤ) (n m : ℕ) :
    (i = 0 → sum_power_series_mod i n m = n) ∧
    (i = 1 → sum_power_series_mod i n m = (∑ k ∈ Finset.Icc 1 n, k) % m) ∧
    (i = 2 → sum_power_series_mod i n m = (∑ k ∈ Finset.Icc 1 n, k ^ 2) % m) ∧
    (i = 3 → sum_power_series_mod i n m = (∑ k ∈ Finset.Icc 1 n, k ^ 3) % m) ∧
    (i ≠ 0 → i ≠ 1 → i ≠ 2 → i ≠ 3 → sum_power_series_mod i n m = 0) := by
  refine ⟨?_, ?_, ?_, ?_, ?_⟩
  · intro h
    subst h
    rfl
  · intro h
    subst h
    show (n % (2 * m)) * ((n % (2 * m)) + 1) / 2 % m = _
    rw [gauss_div (n % (2 * m)), ← sum_Icc_id_mod]
  · intro h
    subst h
    show ((n % (6 * m)) * ((n % (6 * m)) + 1) / 2 % (3 * m)) *
      ((2 * (n % (6 * m)) + 1) % (3 * m)) % (3 * m) / 3 = _
    set n' := n % (6 * m) with hn'
    rw [gauss_div n']
    have hstep1 : ((∑ k ∈ Finset.Icc 1 n', k) % (3 * m)) *
        ((2 * n' + 1) % (3 * m)) % (3 * m) =
        ((∑ k ∈ Finset.Icc 1 n', k) * (2 * n' + 1)) % (3 * m) :=
      (Nat.mul_mod _ _ _).symm
    have hstep2 : (∑ k ∈ Finset.Icc 1 n', k) * (2 * n' + 1) =
        3 * ∑ k ∈ Finset.Icc 1 n', k ^ 2 := by
      have h2 := two_mul_sum_Icc_id n'
      have h6 := six_mul_sum_Icc_sq n'
      have hdouble : 2 * ((∑ k ∈ Finset.Icc 1 n', k) * (2 * n' + 1)) =
          2 * (3 * ∑ k ∈ Finset.Icc 1 n', k ^ 2) := by
        calc 2 * ((∑ k ∈ Finset.Icc 1 n', k) * (2 * n' + 1))
            = (2 * ∑ k ∈ Finset.Icc 1 n', k) * (2 * n' + 1) := by ring
          _ = n' * (n' + 1) * (2 * n' + 1) := by rw [h2]
          _ = 6 * ∑ k ∈ Finset.Icc 1 n', k ^ 2 := h6.symm
          _ = 2 * (3 * ∑ k ∈ Finset.Icc 1 n', k ^ 2) := by ring
      omega
    rw [hstep1, hstep2, Nat.mul_mod_mul_left 3 _ m,
      Nat.mul_div_cancel_left _ (by norm_num : 0 < 3)]
    rw [← sum_Icc_sq_mod]
  · intro h
    subst h
    show ((n % (2 * m)) * ((n % (2 * m)) + 1) / 2 % m) *
      ((n % (2 * m)) * ((n % (2 * m)) + 1) / 2 % m) % m = _
    set n' := n % (2 * m) with hn'
    rw [gauss_div n']
    have hsq : ((∑ k ∈ Finset.Icc 1 n', k) % m) * ((∑ k ∈ Finset.Icc 1 n', k) % m) % m =
        ((∑ k ∈ Finset.Icc 1 n', k) * (∑ k ∈ Finset.Icc 1 n', k)) % m :=
      (Nat.mul_mod _ _ _).symm
    rw [hsq, ← pow_two, sum_Icc_cube_eq_sq n,
      Nat.pow_mod (∑ k ∈ Finset.Icc 1 n', k) 2 m, hn',
      ← sum_Icc_id_mod n m, ← Nat.pow_mod]
  · intro h0 h1 h2 h3
    simp only [sum_power_series_mod, if_neg h0, if_neg h1, if_neg h2, if_neg h3]

/-- C2 witness: the theorem applied at `i = 2`, `n = 10`, `m = 7`, with the
concrete evaluation `sum_power_series_mod 2 10 7 = 385 % 7 = 0`. -/
theorem sum_power_series_mod_spec_witness :
    sum_power_series_mod 2 10 7 = (∑ k ∈ Finset.Icc 1 10, k ^ 2) % 7 ∧
    sum_power_series_mod 2 10 7 = 0 :=
  ⟨(sum_power_series_mod_spec 2 10 7).2.2.1 rfl, by decide⟩

/-! ### Continued fractions: continuants and values -/

theorem contKd_cons (a : ℤ) (l : List ℤ) : contKd (a :: l) = contK l := rfl

theorem contK_cons (a : ℤ) (l : List ℤ) : contK (a :: l) = a * contK l + contKd l := by
  cases l with
  | nil => simp [contK, contKd]
  | cons b l => rfl

theorem contK_pos : ∀ l : List ℤ, (∀ e ∈ l, 1 ≤ e) → 1 ≤ contK l := by
  intro l
  induction l using contK.induct with
  | case1 => intro _; exact le_refl 1
  | case2 a => intro h; exact h a (List.mem_singleton_self a)
  | case3 a b l ih1 ih2 =>
    intro h
    have ha : 1 ≤ a := h a (List.mem_cons_self _ _)
    have h1 : 1 ≤ contK (b :: l) := ih1 (fun e he => h e (List.mem_cons_of_mem a he))
    have h2 : 1 ≤ contK l := ih2 (fun e he =>
      h e (List.mem_cons_of_mem a (List.mem_cons_of_mem b he)))
    show 1 ≤ a * contK (b :: l) + contK l
    nlinarith

theorem contKd_nonneg (l : List ℤ) (h : ∀ e ∈ l, 1 ≤ e) : 0 ≤ contKd l := by
  cases l with
  | nil => exact le_refl 0
  | cons a l =>
    rw [contKd_cons]
    have := contK_pos l (fun e he => h e (List.mem_cons_of_mem a he))
    omega

theorem cfVal_contK : ∀ (l : List ℤ) (a : ℤ), (∀ e ∈ l, 1 ≤ e) →
    cfVal (a :: l) = ((contK (a :: l) : ℤ) : ℚ) / ((contK l : ℤ) : ℚ) := by
  intro l
  induction l with
  | nil => intro a _; simp [cfVal, contK]
  | cons b l ih =>
    intro a h
    have hb : 1 ≤ b := h b (List.mem_cons_self _ _)
    have htail : ∀ e ∈ l, 1 ≤ e := fun e he => h e (List.mem_cons_of_mem b he)
    have h1 : 1 ≤ contK (b :: l) := contK_pos _ h
    have h2 : 1 ≤ contK l := contK_pos _ htail
    have h1q : ((contK (b :: l) : ℤ) : ℚ) ≠ 0 := by
      exact_mod_cast (by omega : (contK (b :: l) : ℤ) ≠ 0)
    have h2q : ((contK l : ℤ) : ℚ) ≠ 0 := by
      exact_mod_cast (by omega : (contK l : ℤ) ≠ 0)
    show (a : ℚ) + (cfVal (b :: l))⁻¹ = _
    rw [ih b htail]
    rw [show contK (a :: b :: l) = a * contK (b :: l) + contK l from rfl]
    rw [inv_div]
    push_cast
    field_simp

theorem cfcGo_spec : ∀ (l : List ℤ) (p0 p1 q0 q1 : ℤ), (∀ e ∈ l, 1 ≤ e) →
    1 ≤ q1 → 0 ≤ q0 →
    ∃ out : List ℚ, cfcGo p0 p1 q0 q1 l = .ok out ∧ out.length = l.length ∧
      (((p1 : ℤ) : ℚ) / ((q1 : ℤ) : ℚ) :: out).getLast? =
        some (((p1 * contK l + p0 * contKd l : ℤ) : ℚ) /
              ((q1 * contK l + q0 * contKd l : ℤ) : ℚ)) := by
  intro l
  induction l with
  | nil =>
    intro p0 p1 q0 q1 _ _ _
    refine ⟨[], rfl, rfl, ?_⟩
    simp [contK, contKd]
  | cons a l ih =>
    intro p0 p1 q0 q1 hpos hq1 hq0
    have ha : 1 ≤ a := hpos a (List.mem_cons_self _ _)
    have htail : ∀ e ∈ l, 1 ≤ e := fun e he => hpos e (List.mem_cons_of_mem a he)
    have hq1' : 1 ≤ a * q1 + q0 := by nlinarith
    obtain ⟨out, hout, hlen, hlast⟩ :=
      ih p1 (a * p1 + p0) q1 (a * q1 + q0) htail hq1' (by omega)
    refine ⟨((a * p1 + p0 : ℤ) : ℚ) / ((a * q1 + q0 : ℤ) : ℚ) :: out, ?_, by simp [hlen], ?_⟩
    · have hne : ¬(a * q1 + q0 : ℤ) = 0 := by omega
      simp only [cfcGo, mkFrac, if_neg hne, hout]
    · rw [List.getLast?_cons_cons, hlast]
      congr 2
      · rw [contK_cons a l, contKd_cons]
        ring
      · rw [contK_cons a l, contKd_cons]
        ring

/-! ### `rational_continous_frac` -/

theorem ratCF_ne_nil (p q : ℤ) (hq : 0 < q) : rational_continous_frac p q ≠ [] := by
  rw [rational_continous_frac]
  rw [dif_neg (by omega : ¬q ≤ 0)]
  split <;> simp

theorem ratCF_all_pos : ∀ (p q : ℤ), 0 < q → q ≤ p →
    ∀ e ∈ rational_continous_frac p q, 1 ≤ e := by
  intro p q
  induction p, q using rational_continous_frac.induct with
  | case1 p q hq => intro h1 _ _ _; omega
  | case2 p q hq hmod =>
    intro hq1 hpq e he
    rw [rational_continous_frac, dif_neg hq, if_pos hmod] at he
    have : e = p := List.mem_singleton.mp he
    omega
  | case3 p q hq hmod ih =>
    intro hq1 hpq e he
    rw [rational_continous_frac, dif_neg hq, if_neg hmod] at he
    rcases List.mem_cons.mp he with he | he
    · subst he
      exact (Int.le_ediv_iff_mul_le hq1).mpr (by omega)
    · have hr0 : 0 < p % q := by
        have := Int.emod_nonneg p (by omega : q ≠ 0)
        omega
      exact ih hr0 (le_of_lt (Int.emod_lt_of_pos p hq1)) e he

theorem ratCF_tail_pos (p q : ℤ) (hq : 0 < q) :
    ∀ e ∈ (rational_continous_frac p q).tail, 1 ≤ e := by
  rw [rational_continous_frac, dif_neg (by omega : ¬q ≤ 0)]
  by_cases hmod : p % q = 0
  · rw [if_pos hmod]
    intro e he
    simp at he
  · rw [if_neg hmod]
    intro e he
    simp only [List.tail_cons] at he
    have hr0 : 0 < p % q := by
      have := Int.emod_nonneg p (by omega : q ≠ 0)
      omega
    exact ratCF_all_pos q (p % q) hr0 (le_of_lt (Int.emod_lt_of_pos p hq)) e he

theorem ratCF_val : ∀ (p q : ℤ), 0 < q → Int.gcd p q = 1 →
    cfVal (rational_continous_frac p q) = (p : ℚ) / (q : ℚ) := by
  intro p q
  induction p, q using rational_continous_frac.induct with
  | case1 p q hq => intro h1 _; omega
  | case2 p q hq hmod =>
    intro hq1 hgcd
    rw [rational_continous_frac, dif_neg hq, if_pos hmod]
    have hdvd : q ∣ p := Int.dvd_of_emod_eq_zero hmod
    rw [Int.gcd_eq_right hdvd] at hgcd
    have hq2 : q = 1 := by omega
    subst hq2
    simp [cfVal]
  | case3 p q hq hmod ih =>
    intro hq1 hgcd
    rw [rational_continous_frac, dif_neg hq, if_neg hmod]
    have hr0 : 0 < p % q := by
      have := Int.emod_nonneg p (by omega : q ≠ 0)
      omega
    have hgcd2 : Int.gcd q (p % q) = 1 := by
      rw [int_gcd_emod p q]
      exact hgcd
    have hv := ih hr0 hgcd2
    obtain ⟨b, l2, hbl⟩ := List.exists_cons_of_ne_nil (ratCF_ne_nil q (p % q) hr0)
    rw [hbl] at hv ⊢
    show ((p / q : ℤ) : ℚ) + (cfVal (b :: l2))⁻¹ = _
    rw [hv]
    have hqq : (q : ℚ) ≠ 0 := by
      exact_mod_cast (by omega : q ≠ 0)
    have hrq : ((p % q : ℤ) : ℚ) ≠ 0 := by
      exact_mod_cast (by omega : ¬(p % q) = 0)
    have hsplit : (q : ℚ) * ((p / q : ℤ) : ℚ) + ((p % q : ℤ) : ℚ) = (p : ℚ) := by
      exact_mod_cast congrArg (Int.cast : ℤ → ℚ) (Int.ediv_add_emod p q)
    rw [inv_div]
    field_simp
    linear_combination hsplit

unseal rational_continous_frac in
theorem ratCF_6_4_eval : rational_continous_frac 6 4 = [1, 4] := by decide

/-- C3 counterexample: for `p = 6`, `q = 4` (so `q > 0` but the fraction is
not in lowest terms) the expansion of the source is `(1, 4)` — the final
`cfrac.append(p)` appends `p = 4` instead of the quotient — and the
reconstructed final convergent is `5/4`, not `6/4 = 3/2`. -/
theorem rational_cf_round_trip_counterexample :
    continous_frac_convergent (rational_continous_frac 6 4) = .ok [(1 : ℚ), (5 : ℚ)/4] ∧
    ((5 : ℚ)/4) ≠ (6 : ℚ)/4 := by
  constructor
  · rw [ratCF_6_4_eval]
    norm_num [continous_frac_convergent, cfcGo, mkFrac]
  · norm_num

/-- C3 (amended): for all integers `p`, `q` with `q > 1` and `gcd(p, q) = 1`
(the fraction already in lowest terms, with at least two partial quotients),
the final term of `continous_frac_convergent(rational_continous_frac(p, q))`
recovers exactly the rational `p/q`.  For inputs not in lowest terms the
round trip fails (see the counterexample), and for `q = 1` the expansion has
a single term, which `continous_frac_convergent` rejects. -/
theorem rational_cf_round_trip (p q : ℤ) (hq : 1 < q) (hco : Int.gcd p q = 1) :
    ∃ cvg, continous_frac_convergent (rational_continous_frac p q) = .ok cvg ∧
      cvg.getLast? = some ((p : ℚ) / (q : ℚ)) := by
  have hq0 : 0 < q := by omega
  have hmod : p % q ≠ 0 := by
    intro h
    have hdvd : q ∣ p := Int.dvd_of_emod_eq_zero h
    rw [Int.gcd_eq_right hdvd] at hco
    omega
  have hr0 : 0 < p % q := by
    have := Int.emod_nonneg p (by omega : q ≠ 0)
    omega
  have hL : rational_continous_frac p q = p / q :: rational_continous_frac q (p % q) := by
    rw [rational_continous_frac, dif_neg (by omega : ¬q ≤ 0), if_neg hmod]
  obtain ⟨a1, rest, htl⟩ := List.exists_cons_of_ne_nil (ratCF_ne_nil q (p % q) hr0)
  have htailpos : ∀ e ∈ (rational_continous_frac p q).tail, 1 ≤ e := ratCF_tail_pos p q hq0
  rw [hL, htl, List.tail_cons] at htailpos
  have ha1 : 1 ≤ a1 := htailpos a1 (List.mem_cons_self _ _)
  have hrest : ∀ e ∈ rest, 1 ≤ e := fun e he => htailpos e (List.mem_cons_of_mem _ he)
  obtain ⟨out, hout, hlen, hlast⟩ :=
    cfcGo_spec rest (p / q) ((p / q) * a1 + 1) 1 a1 hrest ha1 (by norm_num)
  refine ⟨((p / q : ℤ) : ℚ) / ((1 : ℤ) : ℚ) ::
    (((p / q) * a1 + 1 : ℤ) : ℚ) / ((a1 : ℤ) : ℚ) :: out, ?_, ?_⟩
  · rw [hL, htl]
    simp only [continous_frac_convergent, mkFrac,
      if_neg (by norm_num : ¬(1 : ℤ) = 0), if_neg (by omega : ¬a1 = 0), hout]
  · rw [List.getLast?_cons_cons, hlast]
    have hKval := ratCF_val p q hq0 hco
    rw [hL, htl] at hKval
    rw [cfVal_contK (a1 :: rest) (p / q) htailpos] at hKval
    have hnum : (p / q * a1 + 1) * contK rest + p / q * contKd rest =
        contK (p / q :: a1 :: rest) := by
      rw [show contK (p / q :: a1 :: rest) =
        p / q * contK (a1 :: rest) + contK rest from rfl, contK_cons a1 rest]
      ring
    have hden : a1 * contK rest + 1 * contKd rest = contK (a1 :: rest) := by
      rw [contK_cons a1 rest]
      ring
    rw [hnum, hden, hKval]

/-- C3 witness: the amended theorem applied at `p = 7`, `q = 3` (coprime,
`q > 1`), recovering `7/3` as the final convergent. -/
theorem rational_cf_round_trip_witness :
    ∃ cvg, continous_frac_convergent (rational_continous_frac 7 3) = .ok cvg ∧
      cvg.getLast? = some ((7 : ℚ) / 3) :=
  rational_cf_round_trip 7 3 (by norm_num) (by norm_num)

/-! ### `continous_frac_convergent` invariants -/

theorem cfPQ_det (l : List ℤ) : ∀ k : ℕ,
    cfP l (k + 1) * cfQ l k - cfP l k * cfQ l (k + 1) = (-1) ^ k := by
  intro k
  induction k with
  | zero =>
    show (l.getD 0 0 * l.getD 1 0 + 1) * 1 - l.getD 0 0 * l.getD 1 0 = 1
    ring
  | succ k ih =>
    show (l.getD (k + 2) 0 * cfP l (k + 1) + cfP l k) * cfQ l (k + 1) -
      cfP l (k + 1) * (l.getD (k + 2) 0 * cfQ l (k + 1) + cfQ l k) = _
    rw [pow_succ]
    linear_combination (-1 : ℤ) * ih

theorem cfPQ_coprime (l : List ℤ) (k : ℕ) : Int.gcd (cfP l k) (cfQ l k) = 1 := by
  rw [← Int.isCoprime_iff_gcd_eq_one]
  refine ⟨-((-1) ^ k * cfQ l (k + 1)), (-1) ^ k * cfP l (k + 1), ?_⟩
  have h := cfPQ_det l k
  have hsq : ((-1 : ℤ) ^ k) * ((-1 : ℤ) ^ k) = 1 := by
    rw [← pow_add, ← two_mul, pow_mul]
    norm_num
  linear_combination ((-1 : ℤ) ^ k) * h + hsq

theorem cfcGo_getD (l : List ℤ) : ∀ (n k : ℕ), l.length - (k + 2) = n → k + 2 ≤ l.length →
    (∀ j, k + 2 ≤ j → j < l.length → cfQ l j ≠ 0) →
    ∃ out : List ℚ,
      cfcGo (cfP l k) (cfP l (k + 1)) (cfQ l k) (cfQ l (k + 1)) (l.drop (k + 2)) = .ok out ∧
      out.length = l.length - (k + 2) ∧
      ∀ j, j < out.length →
        out.getD j 0 = ((cfP l (k + 2 + j) : ℤ) : ℚ) / ((cfQ l (k + 2 + j) : ℤ) : ℚ) := by
  intro n
  induction n with
  | zero =>
    intro k hn hk _
    have hdrop : l.drop (k + 2) = [] := List.drop_eq_nil_of_le (by omega)
    rw [hdrop]
    refine ⟨[], rfl, by simp only [List.length_nil]; omega, ?_⟩
    intro j hj
    simp at hj
  | succ n ihn =>
    intro k hn hk hQn
    have hklt : k + 2 < l.length := by omega
    rw [List.drop_eq_getElem_cons hklt]
    have hgd : l[k + 2] = l.getD (k + 2) 0 := (List.getD_eq_getElem l 0 hklt).symm
    have hP : l[k + 2] * cfP l (k + 1) + cfP l k = cfP l (k + 2) := by
      rw [hgd]
      rfl
    have hQ2 : l[k + 2] * cfQ l (k + 1) + cfQ l k = cfQ l (k + 2) := by
      rw [hgd]
      rfl
    have hQne : cfQ l (k + 2) ≠ 0 := hQn (k + 2) (by omega) hklt
    obtain ⟨out, hout, hlen, hget⟩ := ihn (k + 1) (by omega) (by omega)
      (fun j hj1 hj2 => hQn j (by omega) hj2)
    refine ⟨((cfP l (k + 2) : ℤ) : ℚ) / ((cfQ l (k + 2) : ℤ) : ℚ) :: out, ?_, ?_, ?_⟩
    · simp only [cfcGo, mkFrac, hP, hQ2, if_neg hQne]
      rw [show k + 2 + 1 = k + 1 + 2 from by omega, hout]
    · simp only [List.length_cons, hlen]
      omega
    · intro j hj
      cases j with
      | zero => simp
      | succ j =>
        simp only [List.getD_cons_succ]
        simp only [List.length_cons] at hj
        rw [hget j (by omega)]
        rw [show k + 2 + (j + 1) = k + 1 + 2 + j from by omega]

/-- C8 counterexample: `[1, 0]` is a two-term integer continued fraction,
yet `continous_frac_convergent([1, 0])` raises `ZeroDivisionError` at
`Fraction(1, 0)` (the recurrence gives `q1 = a1 = 0`) instead of returning
one convergent per prefix. -/
theorem continous_frac_convergent_div_zero_counterexample :
    continous_frac_convergent [1, 0] = .error "division by zero" ∧
    ([1, 0] : List ℤ).length = 2 :=
  ⟨rfl, rfl⟩

/-- C8 (amended): `continous_frac_convergent(cfrac)` fails with the domain
error for fewer than two terms; for `cfrac` with at least two terms whose
recurrence denominators `q[k]` are all nonzero (true of any genuine
continued fraction, whose terms after the first are positive), it returns
exactly one convergent per prefix of `cfrac`, the `k`-th being the rational
`p[k]/q[k]` of the recurrence `p[k] = a[k]p[k-1] + p[k-2]`,
`q[k] = a[k]q[k-1] + q[k-2]`, and each pair `(p[k], q[k])` is coprime, so
each convergent is in lowest terms.  When some `q[k]` is zero the function
instead raises a division-by-zero error (see the counterexample). -/
theorem continous_frac_convergent_spec :
    (∀ l : List ℤ, l.length < 2 →
      continous_frac_convergent l = .error "Continued fraction must longer than 2!") ∧
    (∀ l : List ℤ, 2 ≤ l.length → (∀ k, k < l.length → cfQ l k ≠ 0) →
      ∃ cvg : List ℚ, continous_frac_convergent l = .ok cvg ∧
        cvg.length = l.length ∧
        (∀ k, k < l.length →
          cvg.getD k 0 = ((cfP l k : ℤ) : ℚ) / ((cfQ l k : ℤ) : ℚ)) ∧
        (∀ k, Int.gcd (cfP l k) (cfQ l k) = 1)) := by
  constructor
  · intro l hl
    match l with
    | [] => rfl
    | [a] => rfl
    | a :: b :: l =>
      simp only [List.length_cons] at hl
      omega
  · intro l hl hQ
    match l with
    | a0 :: a1 :: rest =>
    have ha1 : a1 ≠ 0 := by
      have h1 := hQ 1 (by simp)
      exact h1
    obtain ⟨out, hout, hlen, hget⟩ :=
      cfcGo_getD (a0 :: a1 :: rest) ((a0 :: a1 :: rest).length - 2) 0 rfl
        (by simp) (fun j hj1 hj2 => hQ j hj2)
    refine ⟨((a0 : ℤ) : ℚ) / ((1 : ℤ) : ℚ) ::
      ((a0 * a1 + 1 : ℤ) : ℚ) / ((a1 : ℤ) : ℚ) :: out, ?_, ?_, ?_,
      fun k => cfPQ_coprime _ k⟩
    · unfold continous_frac_convergent
      simp only [mkFrac, if_neg (by norm_num : ¬(1 : ℤ) = 0), if_neg ha1]
      rw [show cfcGo a0 (a0 * a1 + 1) 1 a1 rest =
        cfcGo (cfP (a0 :: a1 :: rest) 0) (cfP (a0 :: a1 :: rest) 1)
          (cfQ (a0 :: a1 :: rest) 0) (cfQ (a0 :: a1 :: rest) 1)
          ((a0 :: a1 :: rest).drop 2) from rfl, hout]
    · simp only [List.length_cons, hlen]
      omega
    · intro k hk
      match k with
      | 0 => rfl
      | 1 => rfl
      | (j + 2) =>
        simp only [List.getD_cons_succ]
        simp only [List.length_cons] at hk
        rw [hget j (by rw [hlen]; simp only [List.length_cons]; omega)]
        rw [show 0 + 2 + j = j + 2 from by omega]

/-- C8 witness: the amended theorem applied to the concrete continued
fraction `[4, 2, 6, 7]` (the expansion of `415/93`), whose denominators are
all nonzero, yielding four convergents. -/
theorem continous_frac_convergent_spec_witness :
    ∃ cvg : List ℚ, continous_frac_convergent [4, 2, 6, 7] = .ok cvg ∧
      cvg.length = 4 := by
  obtain ⟨cvg, h1, h2, _⟩ := continous_frac_convergent_spec.2 [4, 2, 6, 7]
    (by norm_num) (by decide)
  exact ⟨cvg, h1, by rw [h2]; rfl⟩

/-! ### `irrational_continous_frac` error behaviour -/

theorem irrational_continous_frac_go_cases :
    ∀ (fuel : ℕ) (d : ℕ) (p q : ℚ) (a : ℤ) (pairs : List (ℚ × ℚ)) (rep : List ℤ),
      irrational_continous_frac_go d p q a pairs rep fuel =
        .error "Repetend is longer than limit, please try higher limit!" ∨
      ∃ v, irrational_continous_frac_go d p q a pairs rep fuel = .ok v := by
  intro fuel
  induction fuel with
  | zero =>
    intro d p q a pairs rep
    exact Or.inl rfl
  | succ fuel ih =>
    intro d p q a pairs rep
    rw [irrational_continous_frac_go]
    split
    · exact Or.inr ⟨_, rfl⟩
    · exact ih d _ _ _ _ _

/-- C4: `irrational_continous_frac(d, p, q, limit)` fails with the domain
error `"D is perfect square!"` whenever `d` is a perfect square; when `d` is
not a perfect square (and `q ≠ 0`, since `q = 0` divides by zero at the
initial partial quotient) the call either detects a `(p, q)` cycle and
returns the full expansion, or reports the explicit resource-exhaustion
error `"Repetend is longer than limit, please try higher limit!"`; the two
error messages are distinct, and in both failure cases no partial result is
returned (the error carries no expansion). -/
theorem irrational_continous_frac_spec :
    (∀ (d : ℕ) (p q : ℤ) (limit : ℕ), Nat.sqrt d * Nat.sqrt d = d →
      irrational_continous_frac d p q limit = .error "D is perfect square!") ∧
    (∀ (d : ℕ) (p q : ℤ) (limit : ℕ), ¬(Nat.sqrt d * Nat.sqrt d = d) → q ≠ 0 →
      (irrational_continous_frac d p q limit =
        .error "Repetend is longer than limit, please try higher limit!" ∨
       ∃ v, irrational_continous_frac d p q limit = .ok v)) ∧
    ("D is perfect square!" : String) ≠
      "Repetend is longer than limit, please try higher limit!" := by
  refine ⟨?_, ?_, by decide⟩
  · intro d p q limit h
    rw [irrational_continous_frac, if_pos h]
  · intro d p q limit h hq
    rw [irrational_continous_frac, if_neg h, if_neg hq]
    exact irrational_continous_frac_go_cases limit d _ _ _ _ _

/-- C4 witness: the domain error at the perfect square `d = 4` (via the
theorem), and the resource-exhaustion error for `d = 2` with `limit = 0`. -/
theorem irrational_continous_frac_spec_witness :
    irrational_continous_frac 4 0 1 10 = .error "D is perfect square!" ∧
    irrational_continous_frac 2 0 1 0 =
      .error "Repetend is longer than limit, please try higher limit!" := by
  constructor
  · exact irrational_continous_frac_spec.1 4 0 1 10 (by norm_num)
  · rw [irrational_continous_frac, if_neg (by norm_num), if_neg (by norm_num)]
    rfl

/-! ### `sum_floor`: division toolkit -/

theorem div_le_iff_div_lt {n y t : ℕ} (ht : 0 < t) : n / t ≤ y ↔ n / (y + 1) < t := by
  have h1 : n / t ≤ y ↔ ¬(y + 1) * t ≤ n := by
    rw [← Nat.le_div_iff_mul_le ht]
    omega
  have h2 : n / (y + 1) < t ↔ ¬t * (y + 1) ≤ n := by
    rw [← Nat.le_div_iff_mul_le (by omega : 0 < y + 1)]
    omega
  rw [h1, h2, mul_comm]

theorem le_div_iff_le_div {n y t : ℕ} (ht : 0 < t) (hy : 0 < y) :
    y ≤ n / t ↔ t ≤ n / y := by
  rw [Nat.le_div_iff_mul_le ht, Nat.le_div_iff_mul_le hy, mul_comm]

theorem le_div_div_self {n x : ℕ} (hx : 0 < x) (hxn : x ≤ n) : x ≤ n / (n / x) := by
  have h1 : 0 < n / x := (Nat.one_le_div_iff hx).mpr hxn
  exact (le_div_iff_le_div h1 hx).mpr (le_refl (n / x))

theorem sum_div_Icc_eq_Ioc (n a b : ℕ) :
    ∑ x ∈ Finset.Icc a b, n / x = ∑ x ∈ Finset.Ioc (a - 1) b, n / x := by
  cases a with
  | zero =>
    show ∑ x ∈ Finset.Icc 0 b, n / x = ∑ x ∈ Finset.Ioc 0 b, n / x
    rw [← Nat.Icc_succ_left 0 b]
    symm
    apply Finset.sum_subset (Finset.Icc_subset_Icc (by omega) (le_refl b))
    intro x hx hx1
    have hx0 : x = 0 := by
      simp only [Finset.mem_Icc] at hx hx1
      omega
    subst hx0
    exact Nat.div_zero n
  | succ a =>
    rw [Nat.Icc_succ_left]
    simp

theorem sum_floor_direct_eq (n : ℕ) : ∀ (k x : ℕ),
    sum_floor_direct n x k = ∑ j ∈ Finset.range k, n / (x + j) := by
  intro k
  induction k with
  | zero => intro x; simp [sum_floor_direct]
  | succ k ih =>
    intro x
    show n / x + sum_floor_direct n (x + 1) k = _
    rw [ih (x + 1), Finset.sum_range_succ']
    simp only [add_zero]
    rw [add_comm]
    congr 1
    apply Finset.sum_congr rfl
    intro j _
    congr 1
    omega

theorem sum_floor_inv_eq (n xmin xmax : ℕ) : ∀ (k x : ℕ),
    sum_floor_inv n xmin xmax x (n / x) k =
      ∑ j ∈ Finset.range k,
        ((if n / (x + j) < xmax then n / (x + j) else xmax) -
          (if xmin - 1 ≤ n / (x + j + 1) then n / (x + j + 1) else xmin - 1)) * (x + j) := by
  intro k
  induction k with
  | zero => intro x; simp [sum_floor_inv]
  | succ k ih =>
    intro x
    show ((if n / x < xmax then n / x else xmax) -
        (if xmin - 1 ≤ n / (x + 1) then n / (x + 1) else xmin - 1)) * x +
      sum_floor_inv n xmin xmax (x + 1) (n / (x + 1)) k = _
    rw [ih (x + 1), Finset.sum_range_succ']
    simp only [add_zero]
    rw [add_comm]
    congr 1
    apply Finset.sum_congr rfl
    intro j _
    have h1 : x + 1 + j = x + (j + 1) := by omega
    rw [h1]

theorem sum_floor_mid_eq (n xmin xmax : ℕ) : ∀ (k x : ℕ),
    sum_floor_mid n xmin xmax x (n / x) k =
      ∑ j ∈ Finset.range k,
        ((if xmin ≤ x + j then n / (x + j) else 0) +
          (if n / (x + j + 1) < xmax then
            ((if n / (x + j) < xmax then n / (x + j) else xmax) - n / (x + j + 1)) * (x + j)
          else 0)) := by
  intro k
  induction k with
  | zero => intro x; simp [sum_floor_mid]
  | succ k ih =>
    intro x
    show (if xmin ≤ x then n / x else 0) +
        (if n / (x + 1) < xmax then
          ((if n / x < xmax then n / x else xmax) - n / (x + 1)) * x
        else 0) +
      sum_floor_mid n xmin xmax (x + 1) (n / (x + 1)) k = _
    rw [ih (x + 1), Finset.sum_range_succ']
    simp only [add_zero]
    rw [add_comm]
    congr 1
    apply Finset.sum_congr rfl
    intro j _
    have h1 : x + 1 + j = x + (j + 1) := by omega
    rw [h1]

theorem inv_telescope (n xmin xmax : ℕ) (hxmin : 0 < xmin) (hx : xmin ≤ xmax)
    (hxn : xmax ≤ n) :
    ∀ k, n / xmax + k ≤ n / xmin + 1 →
      (∑ j ∈ Finset.range k,
        ((if n / (n / xmax + j) < xmax then n / (n / xmax + j) else xmax) -
          (if xmin - 1 ≤ n / (n / xmax + j + 1) then n / (n / xmax + j + 1) else xmin - 1)) *
          (n / xmax + j)) =
      ∑ t ∈ Finset.Ioc (max (n / (n / xmax + k)) (xmin - 1)) xmax, n / t := by
  have hxmax : 0 < xmax := by omega
  have hr0 : 0 < n / xmax := (Nat.one_le_div_iff hxmax).mpr hxn
  intro k
  induction k with
  | zero =>
    intro _
    rw [Finset.sum_range_zero, add_zero]
    have hge : xmax ≤ n / (n / xmax) := le_div_div_self hxmax hxn
    rw [Finset.Ioc_eq_empty (by omega), Finset.sum_empty]
  | succ k ih =>
    intro hk
    rw [Finset.sum_range_succ, ih (by omega)]
    set x := n / xmax + k with hxdef
    have hx0 : 0 < x := by omega
    have hxle : x ≤ n / xmin := by omega
    have hnx_ge : xmin ≤ n / x := (le_div_iff_le_div hx0 hxmin).mpr hxle
    have hmono : n / (x + 1) ≤ n / x := Nat.div_le_div_left (by omega) hx0
    have hupper : n / (x + 1) ≤ xmax - 1 := by
      have hxm1 : xmax - 1 + 1 = xmax := by omega
      rw [div_le_iff_div_lt (by omega : 0 < x + 1), hxm1]
      omega
    have hL1 : max (n / x) (xmin - 1) = n / x := max_eq_left (by omega)
    have hidx : n / xmax + (k + 1) = x + 1 := by omega
    rw [hidx, hL1]
    set M := min (n / x) xmax with hM
    set L2 := max (n / (x + 1)) (xmin - 1) with hL2
    have hL2M : L2 ≤ M := by omega
    have hMx : M ≤ xmax := by omega
    have hsplit : ∑ t ∈ Finset.Ioc L2 M, n / t + ∑ t ∈ Finset.Ioc M xmax, n / t =
        ∑ t ∈ Finset.Ioc L2 xmax, n / t := Finset.sum_Ioc_consecutive _ hL2M hMx
    have hIocM : ∑ t ∈ Finset.Ioc M xmax, n / t = ∑ t ∈ Finset.Ioc (n / x) xmax, n / t := by
      rcases le_or_lt (n / x) xmax with h | h
      · rw [hM, min_eq_left h]
      · rw [hM, min_eq_right (le_of_lt h), Finset.Ioc_self, Finset.sum_empty,
          Finset.Ioc_eq_empty (by omega), Finset.sum_empty]
    have hconst : ∑ t ∈ Finset.Ioc L2 M, n / t = (M - L2) * x := by
      have hc : ∀ t ∈ Finset.Ioc L2 M, n / t = x := by
        intro t ht
        simp only [Finset.mem_Ioc] at ht
        have ht0 : 0 < t := by omega
        have h1 : n / t ≤ x := by
          rw [div_le_iff_div_lt ht0]
          omega
        have h2 : x ≤ n / t := by
          rw [le_div_iff_le_div ht0 hx0]
          omega
        omega
      rw [Finset.sum_congr rfl hc, Finset.sum_const, Nat.card_Ioc, smul_eq_mul]
    have hbody : ((if n / x < xmax then n / x else xmax) -
        (if xmin - 1 ≤ n / (x + 1) then n / (x + 1) else xmin - 1)) * x = (M - L2) * x := by
      congr 1
      rw [hM, hL2]
      split_ifs <;> omega
    rw [hbody, ← hsplit, hIocM, hconst]
    omega

theorem mid_telescope (n xmax : ℕ) (a : ℕ) (ha : 0 < a) (hstart : xmax ≤ n / a) :
    ∀ k,
      (∑ j ∈ Finset.range k,
        (if n / (a + j + 1) < xmax then
          ((if n / (a + j) < xmax then n / (a + j) else xmax) - n / (a + j + 1)) * (a + j)
        else 0)) =
      ∑ t ∈ Finset.Ioc (n / (a + k)) xmax, n / t := by
  intro k
  induction k with
  | zero =>
    rw [Finset.sum_range_zero, add_zero, Finset.Ioc_eq_empty (by omega), Finset.sum_empty]
  | succ k ih =>
    rw [Finset.sum_range_succ, ih]
    set x := a + k with hxdef
    have hx0 : 0 < x := by omega
    have hidx : a + (k + 1) = x + 1 := by omega
    rw [hidx]
    have hmono : n / (x + 1) ≤ n / x := Nat.div_le_div_left (by omega) hx0
    by_cases hc : n / (x + 1) < xmax
    · rw [if_pos hc]
      set M := min (n / x) xmax with hM
      have hL2M : n / (x + 1) ≤ M := by omega
      have hMx : M ≤ xmax := by omega
      have hsplit : ∑ t ∈ Finset.Ioc (n / (x + 1)) M, n / t + ∑ t ∈ Finset.Ioc M xmax, n / t =
          ∑ t ∈ Finset.Ioc (n / (x + 1)) xmax, n / t :=
        Finset.sum_Ioc_consecutive _ hL2M hMx
      have hIocM : ∑ t ∈ Finset.Ioc M xmax, n / t = ∑ t ∈ Finset.Ioc (n / x) xmax, n / t := by
        rcases le_or_lt (n / x) xmax with h | h
        · rw [hM, min_eq_left h]
        · rw [hM, min_eq_right (le_of_lt h), Finset.Ioc_self, Finset.sum_empty,
            Finset.Ioc_eq_empty (by omega), Finset.sum_empty]
      have hconst : ∑ t ∈ Finset.Ioc (n / (x + 1)) M, n / t = (M - n / (x + 1)) * x := by
        have hcv : ∀ t ∈ Finset.Ioc (n / (x + 1)) M, n / t = x := by
          intro t ht
          rw [Finset.mem_Ioc] at ht
          obtain ⟨ht1, ht2⟩ := ht
          have ht0 : 0 < t := Nat.lt_of_le_of_lt (Nat.zero_le _) ht1
          have h1 : n / t ≤ x := by
            rw [div_le_iff_div_lt ht0]
            omega
          have h2 : x ≤ n / t := by
            rw [le_div_iff_le_div ht0 hx0]
            omega
          omega
        rw [Finset.sum_congr rfl hcv, Finset.sum_const, Nat.card_Ioc, smul_eq_mul]
      have hbody : ((if n / x < xmax then n / x else xmax) - n / (x + 1)) * x =
          (M - n / (x + 1)) * x := by
        congr 1
        rw [hM]
        split_ifs <;> omega
      rw [hbody, ← hsplit, hIocM, hconst]
      omega
    · rw [if_neg hc, add_zero]
      rw [Finset.Ioc_eq_empty (by omega), Finset.sum_empty,
        Finset.Ioc_eq_empty (by omega), Finset.sum_empty]

theorem mid_first_part (n xmin : ℕ) (a : ℕ) (ha : 0 < a)
    (hbase : ∑ x ∈ Finset.Icc xmin (a - 1), n / x = 0) :
    ∀ k,
      (∑ j ∈ Finset.range k, (if xmin ≤ a + j then n / (a + j) else 0)) =
      ∑ x ∈ Finset.Icc xmin (a + k - 1), n / x := by
  intro k
  induction k with
  | zero =>
    rw [Finset.sum_range_zero, add_zero, hbase]
  | succ k ih =>
    rw [Finset.sum_range_succ, ih]
    set x := a + k with hxdef
    have hidx : a + (k + 1) - 1 = x := by omega
    rw [hidx]
    by_cases hc : xmin ≤ x
    · rw [if_pos hc]
      have hup : x = (x - 1) + 1 := by omega
      rw [hup, Finset.sum_Icc_succ_top (by omega), ← hup]
    · rw [if_neg hc, add_zero]
      rw [Finset.Icc_eq_empty (by omega), Finset.sum_empty,
        Finset.Icc_eq_empty (by omega), Finset.sum_empty]

theorem boundary_strip (n xmax : ℕ) (hn : 1 ≤ n) (hxm : Nat.sqrt n < xmax)
    (hxn : xmax ≤ n) :
    ∑ t ∈ Finset.Ioc (n / (Nat.sqrt n + 1)) xmax, n / t =
      ∑ t ∈ Finset.Ioc (Nat.sqrt n) xmax, n / t +
        (Nat.sqrt n - n / (Nat.sqrt n + 1)) * Nat.sqrt n := by
  set s := Nat.sqrt n with hs
  have hs1 : 1 ≤ s := Nat.sqrt_pos.mpr hn
  have hsq2 : n < (s + 1) * (s + 1) := Nat.lt_succ_sqrt n
  have hd1 : n / (s + 1) ≤ s := by
    have h2 : n / (s + 1) < s + 1 := by
      rw [Nat.div_lt_iff_lt_mul (by omega : 0 < s + 1)]
      omega
    omega
  have hsplit : ∑ t ∈ Finset.Ioc (n / (s + 1)) s, n / t + ∑ t ∈ Finset.Ioc s xmax, n / t =
      ∑ t ∈ Finset.Ioc (n / (s + 1)) xmax, n / t :=
    Finset.sum_Ioc_consecutive _ hd1 (le_of_lt hxm)
  have hconst : ∑ t ∈ Finset.Ioc (n / (s + 1)) s, n / t = (s - n / (s + 1)) * s := by
    have hcv : ∀ t ∈ Finset.Ioc (n / (s + 1)) s, n / t = s := by
      intro t ht
      rw [Finset.mem_Ioc] at ht
      obtain ⟨ht1, ht2⟩ := ht
      have ht0 : 0 < t := Nat.lt_of_le_of_lt (Nat.zero_le _) ht1
      have h1 : n / t ≤ s := by
        rw [div_le_iff_div_lt ht0]
        omega
      have h2 : s ≤ n / t := by
        rw [Nat.le_div_iff_mul_le ht0]
        calc s * t ≤ s * s := Nat.mul_le_mul_left s ht2
          _ ≤ n := Nat.sqrt_le n
      omega
    rw [Finset.sum_congr rfl hcv, Finset.sum_const, Nat.card_Ioc, smul_eq_mul]
  omega

theorem sqrt_strip_cases (n : ℕ) (hn : 1 ≤ n) :
    (Nat.sqrt n = n / Nat.sqrt n → Nat.sqrt n - n / (Nat.sqrt n + 1) = 1) ∧
    (Nat.sqrt n ≠ n / Nat.sqrt n → Nat.sqrt n - n / (Nat.sqrt n + 1) = 0) := by
  set s := Nat.sqrt n with hs
  have hs1 : 1 ≤ s := Nat.sqrt_pos.mpr hn
  have hsq : s * s ≤ n := Nat.sqrt_le n
  have hsq2 : n < (s + 1) * (s + 1) := Nat.lt_succ_sqrt n
  have hd1 : n / (s + 1) ≤ s := by
    have h2 : n / (s + 1) < s + 1 := by
      rw [Nat.div_lt_iff_lt_mul (by omega : 0 < s + 1)]
      omega
    omega
  have hd2 : s - 1 ≤ n / (s + 1) := by
    rw [Nat.le_div_iff_mul_le (by omega : 0 < s + 1)]
    have hexp : (s - 1) * (s + 1) + 1 = s * s := by
      obtain ⟨m, hm⟩ : ∃ m, s = m + 1 := ⟨s - 1, by omega⟩
      rw [hm]
      simp only [Nat.add_sub_cancel]
      ring
    omega
  have hd3 : s ≤ n / s := by
    rw [Nat.le_div_iff_mul_le (by omega : 0 < s)]
    exact hsq
  constructor
  · intro heq
    have hlt : n / s < s + 1 := by omega
    rw [Nat.div_lt_iff_lt_mul (by omega : 0 < s)] at hlt
    have : n / (s + 1) < s := by
      rw [Nat.div_lt_iff_lt_mul (by omega : 0 < s + 1)]
      calc n < (s + 1) * s := hlt
        _ = s * (s + 1) := by ring
    omega
  · intro hne
    have hge : s + 1 ≤ n / s := by omega
    rw [Nat.le_div_iff_mul_le (by omega : 0 < s)] at hge
    have : s ≤ n / (s + 1) := by
      rw [Nat.le_div_iff_mul_le (by omega : 0 < s + 1)]
      calc s * (s + 1) = (s + 1) * s := by ring
        _ ≤ n := hge
    omega

theorem sum_floor_spec_core (n xmin xmax : ℕ) (hn : 1 ≤ n) (hx : xmin ≤ xmax)
    (hxn : xmax ≤ n) : sum_floor n xmin xmax = ∑ x ∈ Finset.Icc xmin xmax, n / x := by
  have hxminn : xmin ≤ n := le_trans hx hxn
  simp only [sum_floor]
  rw [if_neg (by omega : ¬xmin > n), if_neg (by omega : ¬xmax > n)]
  by_cases h1 : xmax ≤ Nat.sqrt n
  · rw [if_pos h1, sum_floor_direct_eq n (xmax + 1 - xmin) xmin,
      ← Nat.Ico_succ_right, Finset.sum_Ico_eq_sum_range]
  · rw [if_neg h1]
    push_neg at h1
    by_cases h2 : Nat.sqrt n ≤ xmin
    · rw [if_pos h2]
      have hxmin0 : 0 < xmin := by
        have := Nat.sqrt_pos.mpr hn
        omega
      have hr0r : n / xmax ≤ n / xmin := Nat.div_le_div_left hx hxmin0
      have hkb : n / xmax + (n / xmin + 1 - n / xmax) ≤ n / xmin + 1 := by
        revert hr0r
        generalize n / xmax = u
        generalize n / xmin = v
        intro h
        omega
      rw [sum_floor_inv_eq n xmin xmax (n / xmin + 1 - n / xmax) (n / xmax),
        inv_telescope n xmin xmax hxmin0 hx hxn (n / xmin + 1 - n / xmax) hkb]
      have hidx : n / xmax + (n / xmin + 1 - n / xmax) = n / xmin + 1 := by
        revert hr0r
        generalize n / xmax = u
        generalize n / xmin = v
        intro h
        omega
      rw [hidx]
      have hpos1 : 0 < n / xmin + 1 := Nat.succ_pos _
      have hlow : n / (n / xmin + 1) ≤ xmin - 1 := by
        have hx1 : xmin - 1 + 1 = xmin := by omega
        rw [div_le_iff_div_lt hpos1, hx1]
        omega
      rw [max_eq_right hlow, ← sum_div_Icc_eq_Ioc]
    · rw [if_neg h2]
      push_neg at h2
      set s := Nat.sqrt n with hs
      have hs1 : 1 ≤ s := Nat.sqrt_pos.mpr hn
      have hxmax0 : 0 < xmax := by omega
      have hr0pos : 0 < n / xmax := (Nat.one_le_div_iff hxmax0).mpr hxn
      set a := if n / xmax > xmin then xmin else n / xmax with ha
      have haxmin : a ≤ xmin := by
        rw [ha]
        split_ifs <;> omega
      have har0 : a ≤ n / xmax := by
        rw [ha]
        split_ifs <;> omega
      have hkey : sum_floor_mid n xmin xmax a (n / a) (s + 1 - a) =
          ∑ x ∈ Finset.Icc xmin s, n / x +
            ∑ t ∈ Finset.Ioc (n / (s + 1)) xmax, n / t := by
        rcases Nat.eq_zero_or_pos a with ha0 | hapos
        · have hxmin0 : xmin = 0 := by
            rw [ha] at ha0
            split_ifs at ha0 <;> omega
          rw [ha0, hxmin0]
          have hcount : s + 1 - 0 = s + 1 := by omega
          rw [hcount]
          have hstep : sum_floor_mid n 0 xmax 0 (n / 0) (s + 1) =
              (if (0:ℕ) ≤ 0 then n / 0 else 0) +
                (if n / (0 + 1) < xmax then
                  ((if n / 0 < xmax then n / 0 else xmax) - n / (0 + 1)) * 0
                else 0) +
              sum_floor_mid n 0 xmax (0 + 1) (n / (0 + 1)) s := rfl
          rw [hstep]
          have hA : (if (0:ℕ) ≤ 0 then n / 0 else 0) = 0 := by
            simp [Nat.div_zero]
          have hB : (if n / (0 + 1) < xmax then
              ((if n / 0 < xmax then n / 0 else xmax) - n / (0 + 1)) * 0
            else 0) = 0 := by
            split_ifs <;> simp
          rw [hA, hB, zero_add, zero_add,
            sum_floor_mid_eq n 0 xmax s (0 + 1), Finset.sum_add_distrib]
          have hbase : ∑ x ∈ Finset.Icc 0 (0 + 1 - 1), n / x = 0 := by
            simp [Nat.div_zero]
          have hstart : xmax ≤ n / (0 + 1) := by
            rw [zero_add, Nat.div_one]
            exact hxn
          rw [mid_first_part n 0 (0 + 1) (by omega) hbase s,
            mid_telescope n xmax (0 + 1) (by omega) hstart s]
          have hi1 : 0 + 1 + s - 1 = s := by omega
          have hi2 : 0 + 1 + s = s + 1 := by omega
          rw [hi1, hi2]
        · rw [sum_floor_mid_eq n xmin xmax (s + 1 - a) a, Finset.sum_add_distrib]
          have hbase : ∑ x ∈ Finset.Icc xmin (a - 1), n / x = 0 := by
            rw [Finset.Icc_eq_empty (by omega), Finset.sum_empty]
          have hstart : xmax ≤ n / a :=
            calc xmax ≤ n / (n / xmax) := le_div_div_self hxmax0 hxn
              _ ≤ n / a := Nat.div_le_div_left har0 hapos
          rw [mid_first_part n xmin a hapos hbase (s + 1 - a),
            mid_telescope n xmax a hapos hstart (s + 1 - a)]
          have hi1 : a + (s + 1 - a) - 1 = s := by omega
          have hi2 : a + (s + 1 - a) = s + 1 := by omega
          rw [hi1, hi2]
      obtain ⟨hcase1, hcase2⟩ := sqrt_strip_cases n hn
      rw [← hs] at hcase1 hcase2
      have hbd := boundary_strip n xmax hn (hs ▸ h1) hxn
      rw [← hs] at hbd
      have htarget : ∑ x ∈ Finset.Icc xmin xmax, n / x =
          ∑ x ∈ Finset.Icc xmin s, n / x + ∑ t ∈ Finset.Ioc s xmax, n / t := by
        rw [sum_div_Icc_eq_Ioc n xmin xmax, sum_div_Icc_eq_Ioc n xmin s]
        exact (Finset.sum_Ioc_consecutive _ (by omega) (by omega)).symm
      by_cases hsq : s = n / s
      · rw [if_pos hsq, hkey, htarget, hbd, hcase1 hsq, one_mul]
        omega
      · rw [if_neg hsq, hkey, htarget, hbd, hcase2 hsq, zero_mul]
        omega

theorem pydiv_pos (a b : ℕ) (hb : 0 < b) : pydiv a b = Except.ok (a / b) := by
  rw [pydiv, if_neg (by omega)]

theorem cast_min_clamp (a b : ℕ) :
    (if (a : ℤ) < (b : ℤ) then (a : ℤ) else (b : ℤ)) = ↑(if a < b then a else b) := by
  split_ifs <;> omega

theorem cast_lb_clamp (xmin a : ℕ) :
    (if (xmin : ℤ) - 1 ≤ (a : ℤ) then (a : ℤ) else (xmin : ℤ) - 1) =
      ↑(if xmin - 1 ≤ a then a else xmin - 1) := by
  split_ifs <;> omega

theorem sum_floor_directE_eq (n : ℕ) : ∀ (k x : ℕ), 0 < x →
    sum_floor_directE n x k = Except.ok ↑(sum_floor_direct n x k) := by
  intro k
  induction k with
  | zero => intro x hx; rfl
  | succ k ih =>
    intro x hx
    simp only [sum_floor_directE, sum_floor_direct, pydiv_pos n x hx,
      ih (x + 1) (Nat.succ_pos x)]
    congr 1

theorem sum_floor_midE_eq (n xmin xmax : ℕ) : ∀ (k x : ℕ), 0 < x →
    sum_floor_midE n xmin xmax x (n / x) k =
      Except.ok ↑(sum_floor_mid n xmin xmax x (n / x) k) := by
  intro k
  induction k with
  | zero => intro x hx; rfl
  | succ k ih =>
    intro x hx
    have hmono : n / (x + 1) ≤ n / x := Nat.div_le_div_left (by omega) hx
    simp only [sum_floor_midE, sum_floor_mid, pydiv_pos n (x + 1) (Nat.succ_pos x),
      ih (x + 1) (Nat.succ_pos x)]
    congr 1
    have h1 : (if xmin ≤ x then ((n / x : ℕ) : ℤ) else 0) =
        ↑(if xmin ≤ x then n / x else 0) := by
      split_ifs <;> simp
    have h2 : (if n / (x + 1) < xmax then
        ((if ((n / x : ℕ) : ℤ) < (xmax : ℤ) then ((n / x : ℕ) : ℤ) else (xmax : ℤ)) -
          ((n / (x + 1) : ℕ) : ℤ)) * (x : ℤ) else 0) =
        ↑(if n / (x + 1) < xmax then
          ((if n / x < xmax then n / x else xmax) - n / (x + 1)) * x else 0) := by
      by_cases hg : n / (x + 1) < xmax
      · rw [if_pos hg, if_pos hg, cast_min_clamp]
        have hle : n / (x + 1) ≤ if n / x < xmax then n / x else xmax := by
          split_ifs <;> omega
        rw [← Nat.cast_sub hle, ← Nat.cast_mul]
      · rw [if_neg hg, if_neg hg, Nat.cast_zero]
    rw [h1, h2, ← Nat.cast_add, ← Nat.cast_add]

theorem sum_floor_invE_eq (n xmin xmax : ℕ) (hxm : xmin ≤ xmax) : ∀ (k x : ℕ), 0 < x →
    (∀ j, j < k → n / (x + j + 1) ≤ xmax ∧ xmin - 1 ≤ n / (x + j)) →
    sum_floor_invE n xmin xmax x (n / x) k =
      Except.ok ↑(sum_floor_inv n xmin xmax x (n / x) k) := by
  intro k
  induction k with
  | zero => intro x hx _; rfl
  | succ k ih =>
    intro x hx H
    obtain ⟨hH1, hH2⟩ := H 0 (Nat.succ_pos k)
    simp only [add_zero] at hH1 hH2
    have hmono : n / (x + 1) ≤ n / x := Nat.div_le_div_left (by omega) hx
    have H' : ∀ j, j < k → n / (x + 1 + j + 1) ≤ xmax ∧ xmin - 1 ≤ n / (x + 1 + j) := by
      intro j hj
      have h := H (j + 1) (by omega)
      have e1 : x + (j + 1) + 1 = x + 1 + j + 1 := by omega
      have e2 : x + (j + 1) = x + 1 + j := by omega
      rw [e1, e2] at h
      exact h
    simp only [sum_floor_invE, sum_floor_inv, pydiv_pos n (x + 1) (Nat.succ_pos x),
      ih (x + 1) (Nat.succ_pos x) H']
    congr 1
    rw [cast_min_clamp (n / x) xmax, cast_lb_clamp xmin (n / (x + 1))]
    have hle : (if xmin - 1 ≤ n / (x + 1) then n / (x + 1) else xmin - 1) ≤
        (if n / x < xmax then n / x else xmax) := by
      split_ifs <;> omega
    rw [← Nat.cast_sub hle, ← Nat.cast_mul, ← Nat.cast_add]

theorem sum_floorE_eq_pure (n xmin xmax : ℕ) (hn : 1 ≤ n) (hxmin : 1 ≤ xmin)
    (hx : xmin ≤ xmax) :
    sum_floorE n xmin xmax = Except.ok ↑(sum_floor n xmin xmax) := by
  have hnrt : 1 ≤ Nat.sqrt n := Nat.sqrt_pos.mpr hn
  simp only [sum_floorE, sum_floor]
  by_cases hminn : xmin > n
  · rw [if_pos hminn, if_pos hminn]
    rfl
  · rw [if_neg hminn, if_neg hminn]
    set xmax' := if xmax > n then n else xmax with hxm'
    have hxmax'1 : 1 ≤ xmax' := by
      rw [hxm']
      split_ifs <;> omega
    have hxmax'n : xmax' ≤ n := by
      rw [hxm']
      split_ifs <;> omega
    have hxminxmax' : xmin ≤ xmax' := by
      rw [hxm']
      split_ifs <;> omega
    by_cases hb1 : xmax' ≤ Nat.sqrt n
    · rw [if_pos hb1, if_pos hb1]
      exact sum_floor_directE_eq n (xmax' + 1 - xmin) xmin (by omega)
    · rw [if_neg hb1, if_neg hb1]
      have hr0pos : 0 < n / xmax' := (Nat.one_le_div_iff (by omega)).mpr hxmax'n
      by_cases hb2 : Nat.sqrt n ≤ xmin
      · rw [if_pos hb2, if_pos hb2]
        rw [pydiv_pos n xmax' (by omega), pydiv_pos n xmin (by omega)]
        simp only []
        rw [pydiv_pos n (n / xmax') hr0pos]
        simp only []
        refine sum_floor_invE_eq n xmin xmax' hxminxmax' (n / xmin + 1 - n / xmax')
          (n / xmax') hr0pos ?_
        intro j hj
        constructor
        · have h1 : n / (n / xmax' + 1) < xmax' :=
            (div_le_iff_div_lt (by omega)).mp (le_refl (n / xmax'))
          have h2 : n / (n / xmax' + j + 1) ≤ n / (n / xmax' + 1) :=
            Nat.div_le_div_left (by omega) (by omega)
          omega
        · have hidx : n / xmax' + j ≤ n / xmin := by
            revert hj
            generalize n / xmin = v
            generalize n / xmax' = u
            intro hj
            omega
          have h3 : n / (n / xmin) ≤ n / (n / xmax' + j) :=
            Nat.div_le_div_left hidx (by omega)
          have h4 : xmin ≤ n / (n / xmin) := le_div_div_self (by omega) (by omega)
          omega
      · rw [if_neg hb2, if_neg hb2]
        rw [pydiv_pos n xmax' (by omega)]
        simp only []
        set a := if n / xmax' > xmin then xmin else n / xmax' with ha
        have hapos : 0 < a := by
          rw [ha]
          split_ifs <;> omega
        rw [pydiv_pos n a hapos]
        simp only []
        rw [sum_floor_midE_eq n xmin xmax' (Nat.sqrt n + 1 - a) a hapos]
        simp only []
        rw [pydiv_pos n (Nat.sqrt n) (by omega)]
        simp only []
        have hcore := sum_floor_spec_core n xmin xmax' hn hxminxmax' hxmax'n
        simp only [sum_floor] at hcore
        rw [if_neg hminn, if_neg (show ¬xmax' > n by omega), if_neg hb1, if_neg hb2,
          ← ha] at hcore
        have hS : 1 ≤ ∑ x ∈ Finset.Icc xmin xmax', n / x := by
          have hmem : xmin ∈ Finset.Icc xmin xmax' :=
            Finset.mem_Icc.mpr ⟨le_refl xmin, hxminxmax'⟩
          have hdiv : 1 ≤ n / xmin := (Nat.one_le_div_iff (by omega)).mpr (by omega)
          exact le_trans hdiv (Finset.single_le_sum (fun i _ => Nat.zero_le _) hmem)
        by_cases hsq : Nat.sqrt n = n / Nat.sqrt n
        · rw [if_pos hsq, if_pos hsq]
          rw [if_pos hsq] at hcore
          have hge : Nat.sqrt n ≤ sum_floor_mid n xmin xmax' a (n / a) (Nat.sqrt n + 1 - a) := by
            revert hcore hS
            generalize sum_floor_mid n xmin xmax' a (n / a) (Nat.sqrt n + 1 - a) = M
            generalize (∑ x ∈ Finset.Icc xmin xmax', n / x) = S
            intro h1 h2
            omega
          rw [← Nat.cast_sub hge]
        · rw [if_neg hsq, if_neg hsq]

theorem sum_floor_clamp (n xmin xmax : ℕ) (h : xmax > n) :
    sum_floor n xmin xmax = sum_floor n xmin n := by
  simp only [sum_floor]
  rw [if_pos h, if_neg (by omega : ¬n > n)]

theorem sum_div_tail_zero (n xmin xmax : ℕ) (h : n ≤ xmax) :
    ∑ x ∈ Finset.Icc xmin xmax, n / x = ∑ x ∈ Finset.Icc xmin n, n / x := by
  symm
  apply Finset.sum_subset
  · exact Finset.Icc_subset_Icc_right h
  · intro x hx1 hx2
    rw [Finset.mem_Icc] at hx1 hx2
    exact Nat.div_eq_of_lt (by omega)

theorem sum_floor_eq_naive (n xmin xmax : ℕ) (hn : 1 ≤ n) (hx : xmin ≤ xmax) :
    sum_floor n xmin xmax = ∑ x ∈ Finset.Icc xmin xmax, n / x := by
  by_cases hmin : xmin > n
  · rw [sum_floor, if_pos hmin]
    symm
    apply Finset.sum_eq_zero
    intro x hx'
    rw [Finset.mem_Icc] at hx'
    exact Nat.div_eq_of_lt (by omega)
  · by_cases hmax : xmax ≤ n
    · exact sum_floor_spec_core n xmin xmax hn hx hmax
    · push_neg at hmin hmax
      rw [sum_floor_clamp n xmin xmax hmax,
        sum_floor_spec_core n xmin n hn hmin le_rfl,
        ← sum_div_tail_zero n xmin xmax (le_of_lt hmax)]

unseal Nat.sqrt.iter in
/-- C1 counterexample: the claim quantifies over `0 ≤ xmin ≤ xmax`, but for
`xmin = 0` every branch of `sum_floor` performs a division by zero (directly
by the loop variable starting at `0`, or via `real_xmin = 0`), so Python
raises `ZeroDivisionError` instead of returning the naive summation:
here `sum_floor(5, 0, 2)`. -/
theorem sum_floor_xmin_zero_counterexample :
    sum_floorE 5 0 2 = Except.error "integer division or modulo by zero" := by rfl

/-- C1: for every `n ≥ 1` and `1 ≤ xmin ≤ xmax`, `sum_floor(n, xmin, xmax)`
returns (with no `ZeroDivisionError`) exactly the naive summation
`∑_{x=xmin}^{xmax} ⌊n/x⌋`, in all three regimes and with `xmax` clamped to
`n` absorbing the zero-contribution tail.  (For `xmin = 0`, which the claim
also allows, the function instead raises, see the counterexample.) -/
theorem sum_floor_spec (n xmin xmax : ℕ) (hn : 1 ≤ n) (hxmin : 1 ≤ xmin)
    (hx : xmin ≤ xmax) :
    sum_floorE n xmin xmax = Except.ok ↑(∑ x ∈ Finset.Icc xmin xmax, n / x) := by
  rw [sum_floorE_eq_pure n xmin xmax hn hxmin hx, sum_floor_eq_naive n xmin xmax hn hx]

theorem sum_floor_spec_witness :
    sum_floorE 10 2 5 = Except.ok ((12 : ℤ)) := by
  have h := sum_floor_spec 10 2 5 (by decide) (by decide) (by decide)
  rw [h]
  rfl
